import Mathlib

/-!
# PBFT consensus adapter of CCF: embedding and verified properties

A shallow embedding of `src/consensus/pbft/pbft.h` (the enclave network
adapter `PbftEnclaveNetwork` and the consensus front end `Pbft`) and of
`src/consensus/pbft/libbyz/Prepare.h`.

Conventions of the embedding:

* `Index` (`int64_t`), `View` and `Seqno` are unbounded integers: the
  development describes the executions without signed overflow, which is
  undefined behaviour in the source.
* Calls made on collaborators whose code is outside the embedded files (the
  node-to-node channel, the libbyz message receiver, the store, the ledger)
  are recorded in traces, in call order, and their results are taken from an
  environment record the theorems quantify over.
* A C++ exception is the result `none`, or an explicit `Outcome.threw`.
-/

namespace pbft

/-! ## Types declared outside the embedded sources -/

/-- The `NodeId` of pbfttypes.h, an unsigned integer. -/
abbrev NodeId := Nat

/-- The `Index` of pbfttypes.h, a signed integer. -/
abbrev Index := Int

/-- One octet of a wire buffer. -/
abbrev Byte := UInt8

/-- Modelled from the spec: consensus/pbft/pbfttypes.h and
libbyz/Message_tags.h are not among the sources, so the values they declare
are parameters: the two enumerators of `PbftMsgType`, the tag
`Append_entries_tag`, and the widths in bytes of `PbftMsgType` and of
`NodeId`. The proof fields say what the C++ types guarantee: an enumerator
fits in its underlying type, and the two enumerators differ (they are labels
of one `switch`). -/
structure Decls where
  pbft_message : Nat
  pbft_append_entries : Nat
  Append_entries_tag : Nat
  sizeof_PbftMsgType : Nat
  sizeof_NodeId : Nat
  pbft_message_fits : pbft_message < 256 ^ sizeof_PbftMsgType
  pbft_append_entries_fits : pbft_append_entries < 256 ^ sizeof_PbftMsgType
  enumerators_differ : pbft_message ≠ pbft_append_entries

/-- The `entries_batch_size` constant of pbft.h. -/
def entries_batch_size : Index := 10

/-- The per-peer map `NodesMap`: node id to the last index sent to that node.
`find` is application, `nodes[to] = v` is `Function.update`. -/
abbrev NodesMap := NodeId → Option Index

/-- The fields of a `PbftHeader`. -/
structure PbftHeader where
  msg : Nat
  from_node : NodeId
  deriving DecidableEq, Repr

/-- The fields of an `AppendEntries` header, in the order of the aggregate
initialiser `{pbft_append_entries, id, end_idx, prev_idx}`. -/
structure AppendEntries where
  msg : Nat
  from_node : NodeId
  idx : Index
  prev_idx : Index
  deriving DecidableEq, Repr

/-- Modelled from the spec: libbyz/Message.h is not among the sources. A
message exposes its tag and its buffer; `contents` holds the `size()` bytes
that `contents()` points to. -/
structure Message where
  tag : Nat
  contents : List Byte
  deriving DecidableEq, Repr

/-- The `size()` of a message: the length of its contents. -/
def Message.size (m : Message) : Nat := m.contents.length

/-- The part of `IPrincipal` that `Send` reads. -/
structure IPrincipal where
  pid : NodeId
  deriving DecidableEq, Repr

/-! ## Byte-level serialisation -/

/-- Little-endian encoding of `n` on `w` bytes (the memory image of an
unsigned integer of that width). -/
def le_bytes : Nat → Nat → List Byte
  | 0, _ => []
  | w + 1, n => UInt8.ofNat (n % 256) :: le_bytes w (n / 256)

/-- The unsigned integer whose little-endian memory image is `bs`. -/
def le_value : List Byte → Nat
  | [] => 0
  | b :: bs => b.toNat + 256 * le_value bs

/-- The `sizeof(PbftHeader)` of the packed struct. -/
def Decls.sizeof_PbftHeader (d : Decls) : Nat :=
  d.sizeof_PbftMsgType + d.sizeof_NodeId

/-- The memory image of a packed `PbftHeader`. -/
def PbftHeader.bytes (d : Decls) (h : PbftHeader) : List Byte :=
  le_bytes d.sizeof_PbftMsgType h.msg ++ le_bytes d.sizeof_NodeId h.from_node

/-- The write cursor `(data_, space)` over a buffer: `pos` is the offset of
`data_` from the start of the buffer. -/
structure WriteCursor where
  buf : List Byte
  pos : Nat
  space : Nat
  deriving DecidableEq, Repr

/-- Modelled from the spec: ds/serialized.h is not among the sources.
`serialized::write` throws when fewer than `block.length` bytes of space
remain; otherwise it copies the block at the cursor and advances the cursor. -/
def serialized_write (c : WriteCursor) (block : List Byte) : Option WriteCursor :=
  if c.space < block.length then none
  else some
    { buf := c.buf.take c.pos ++ block ++ c.buf.drop (c.pos + block.length)
      pos := c.pos + block.length
      space := c.space - block.length }

/-- Modelled from the spec: ds/serialized.h is not among the sources.
`serialized::peek<T>` throws when fewer than `sizeof(T)` bytes are left and
otherwise reads a `T` without moving the cursor. -/
def serialized_peek (width : Nat) (data : List Byte) : Option Nat :=
  if data.length < width then none else some (le_value (data.take width))

/-- Modelled from the spec: ds/serialized.h is not among the sources.
`serialized::skip` throws when asked to skip more than what is left and
otherwise advances the cursor. -/
def serialized_skip (data : List Byte) (n : Nat) : Option (List Byte) :=
  if data.length < n then none else some (data.drop n)

/-- The effect of `std::vector<uint8_t>::resize`: truncate, or pad with zero. -/
def vector_resize (v : List Byte) (n : Nat) : List Byte :=
  (v ++ List.replicate (n - v.length) 0).take n

/-! ## PbftEnclaveNetwork -/

/-- One call of `n2n_channels->send_authenticated(consensus_msg, to, _)`:
with a byte vector, or with an `AppendEntries` header. -/
inductive ChannelMsg where
  | bytes (to_node : NodeId) (data : List Byte)
  | append_entries (to_node : NodeId) (ae : AppendEntries)
  deriving DecidableEq, Repr

/-- The state a `PbftEnclaveNetwork` works on: its members, the two
references it holds (`nodes`, `latest_stable_ae_index`), and the calls it has
made so far on the channel (`n2n_sent`) and on the registered receiver's
`receive_message` (`received`, each with the data and the size passed). -/
structure PbftEnclaveNetwork where
  id : NodeId
  nodes : NodesMap
  latest_stable_ae_index : Index
  serialized_msg : List Byte
  n2n_sent : List ChannelMsg
  received : List (List Byte × Nat)

/-- The method `send_append_entries_range`. -/
def send_append_entries_range (d : Decls) (s : PbftEnclaveNetwork)
    (to_node : NodeId) (start_idx end_idx : Index) : PbftEnclaveNetwork :=
  let prev_idx := start_idx - 1
  let ae : AppendEntries :=
    { msg := d.pbft_append_entries, from_node := s.id, idx := end_idx, prev_idx := prev_idx }
  let nodes : NodesMap :=
    match s.nodes to_node with
    | some _ => Function.update s.nodes to_node (some end_idx)
    | none => Function.update s.nodes to_node (some end_idx)
  { s with nodes := nodes, n2n_sent := s.n2n_sent ++ [ChannelMsg.append_entries to_node ae] }

/-- The `for` loop of `send_append_entries`, from the test of its condition
with loop variable `i`; `fuel` bounds the number of iterations. The result
is the value of `start_idx` after the loop, and the state. -/
def send_append_entries_loop (d : Decls) (to_node : NodeId) :
    Nat → Index → Index → PbftEnclaveNetwork → Index × PbftEnclaveNetwork
  | 0, _, start_idx, s => (start_idx, s)
  | fuel + 1, i, start_idx, s =>
    if i < s.latest_stable_ae_index then
      let s1 := send_append_entries_range d s to_node start_idx i
      send_append_entries_loop d to_node fuel (i + entries_batch_size)
        (min (i + 1) s1.latest_stable_ae_index) s1
    else (start_idx, s)

/-- The method `send_append_entries`. The loop runs on
`latest_stable_ae_index - end_idx` units of fuel, which it never exhausts
(see `send_append_entries_loop_fuel`). -/
def send_append_entries (d : Decls) (s : PbftEnclaveNetwork)
    (to_node : NodeId) (start_idx : Index) : PbftEnclaveNetwork :=
  let end_idx : Index :=
    if s.latest_stable_ae_index = 0 then 0
    else min (start_idx + entries_batch_size) s.latest_stable_ae_index
  let r := send_append_entries_loop d to_node (s.latest_stable_ae_index - end_idx).toNat
    end_idx start_idx s
  let start_idx := r.1
  let s := r.2
  if s.latest_stable_ae_index = 0 ∨ end_idx ≤ s.latest_stable_ae_index then
    send_append_entries_range d s to_node start_idx s.latest_stable_ae_index
  else s

/-- The method `Send`. The result is `none` when a `serialized::write`
throws, and otherwise the returned `int` and the state. -/
def Send (d : Decls) (s : PbftEnclaveNetwork) (msg : Message) (principal : IPrincipal) :
    Option (Nat × PbftEnclaveNetwork) :=
  let to_node := principal.pid
  if to_node = s.id then
    some (msg.size, { s with received := s.received ++ [(msg.contents, msg.size)] })
  else
    let hdr : PbftHeader := { msg := d.pbft_message, from_node := s.id }
    let space := d.sizeof_PbftHeader + msg.size
    let buf := vector_resize s.serialized_msg space
    match serialized_write { buf := buf, pos := 0, space := space } (hdr.bytes d) with
    | none => none
    | some c1 =>
      match serialized_write c1 msg.contents with
      | none => none
      | some c2 =>
        let s1 := { s with serialized_msg := c2.buf }
        if msg.tag = d.Append_entries_tag then
          let match_idx : Index :=
            match s1.nodes to_node with
            | some v => v
            | none => 0
          let s2 :=
            if match_idx < s1.latest_stable_ae_index then
              send_append_entries d s1 to_node (match_idx + 1)
            else s1
          some (msg.size, s2)
        else
          some (msg.size,
            { s1 with n2n_sent := s1.n2n_sent ++ [ChannelMsg.bytes to_node s1.serialized_msg] })

/-! ## Pbft -/

/-- The `SeqNo` of `kv::Consensus`, also used for `kv::Version`. -/
abbrev SeqNo := Int

/-- The `View` of `kv::Consensus` and of libbyz. -/
abbrev View := Int

/-- The struct `ViewChangeInfo`. -/
structure ViewChangeInfo where
  min_global_commit : SeqNo
  view : View
  deriving DecidableEq, Repr

/-- The values of `kv::DeserialiseSuccess` as the `switch` of `recv_message`
tells them apart: its three labels, and any other value `v`, which reaches
the `default` label. -/
inductive DeserialiseSuccess where
  | FAILED
  | PASS
  | PASS_PRE_PREPARE
  | other (v : Nat)
  deriving DecidableEq, Repr

/-- The collaborators of `Pbft` whose code is outside the embedded sources,
as functions on their joint state `σ` (store, ledger, channels, libbyz
receiver); `τ` is the transaction type `ccf::Store::Tx`.

* store: `current_version`, and `deserialise_views(entry, public_only,
  nullptr, &tx)`, which yields its result, the filled transaction and the
  next state;
* libbyz receiver: `IsExecutionPending`, `receive_message(data, size)`,
  `playback_request(tx)`, `playback_pre_prepare(tx)`, `view`;
* channels: `recv_authenticated<AppendEntries>(data, size)`, `none` when it
  throws `std::logic_error`, else the header and the advanced cursor;
* ledger: `get_entry(data, size)` yields the entry, the success flag and the
  advanced cursor, `skip_entry(data, size)` the advanced cursor, and
  `truncate(idx)` the next state. -/
structure Env (σ τ : Type) where
  current_version : σ → Index
  deserialise_views : σ → List Byte → Bool → DeserialiseSuccess × τ × σ
  IsExecutionPending : σ → Bool
  receive_message : σ → List Byte → Nat → σ
  playback_request : σ → τ → σ
  playback_pre_prepare : σ → τ → σ
  view : σ → View
  recv_authenticated : σ → List Byte → Option (AppendEntries × List Byte)
  get_entry : List Byte → (List Byte × Bool) × List Byte
  skip_entry : List Byte → List Byte
  truncate : σ → Index → σ

/-- One call made by `recv_message` on a collaborator. For the entry calls,
`i` is the value of the loop variable; `deserialise_views` also records the
store's `current_version()` at the moment of the call, and the result. -/
inductive Call where
  | receive_message (data : List Byte) (size : Nat)
  | skip_entry (i : Index)
  | get_entry (i : Index)
  | truncate (idx : Index)
  | deserialise_views (i : Index) (version : Index) (entry : List Byte)
      (result : DeserialiseSuccess)
  | playback_request (i : Index)
  | playback_pre_prepare (i : Index)
  deriving DecidableEq, Repr

/-- How a method call ended: it returned, or an exception left it. -/
inductive Outcome where
  | returned
  | threw
  deriving DecidableEq, Repr

/-- The data members of `Pbft` that the embedded methods use, the joint
state `world` of its collaborators, and the calls made on them so far. -/
structure Pbft (σ : Type) where
  local_id : NodeId
  nodes : NodesMap
  global_commit_seqno : SeqNo
  last_commit_view : View
  latest_stable_ae_index : Index
  public_only : Bool
  view_change_list : List ViewChangeInfo
  world : σ
  calls : List Call

/-- The fields of the libbyz `GeneralInfo` that the constructor assigns. -/
structure GeneralInfo where
  num_replicas : Nat
  num_clients : Nat
  max_faulty : Nat
  service_name : String
  auth_timeout : Nat
  view_timeout : Nat
  status_timeout : Nat
  recovery_timeout : Nat
  max_requests_between_signatures : Nat
  support_threading : Bool
  deriving DecidableEq, Repr

/-- The fields of the libbyz `PrincipalInfo` that the constructor assigns. -/
structure PrincipalInfo where
  id : NodeId
  port : Nat
  ip : String
  cert : List Byte
  host_name : String
  is_replica : Bool
  deriving DecidableEq, Repr

/-- The libbyz `NodeInfo`, in the order of the aggregate initialiser
`{my_info, privk_pem, general_info}`. -/
structure NodeInfo where
  own_info : PrincipalInfo
  privk : String
  general_info : GeneralInfo
  deriving DecidableEq, Repr

/-- The `node_info` that the constructor of `Pbft` builds and passes to
`Byz_init_replica`, from the constructor arguments it depends on.
`Max_requests_in_batch` is a libbyz constant declared outside the embedded
sources, taken as a parameter. -/
def Pbft_node_info (Max_requests_in_batch : Nat) (id : NodeId) (sig_max_tx : Nat)
    (privk_pem : String) (cert : List Byte) : NodeInfo :=
  let general_info : GeneralInfo :=
    { num_replicas := 1
      num_clients := 1
      max_faulty := 0
      service_name := "generic"
      auth_timeout := 1800000
      view_timeout := 5000
      status_timeout := 100
      recovery_timeout := 9999250000
      max_requests_between_signatures := sig_max_tx / Max_requests_in_batch
      support_threading := true }
  let my_info : PrincipalInfo :=
    { id := id
      port := 0
      ip := "256.256.256.256"
      cert := cert
      host_name := "machineB"
      is_replica := true }
  { own_info := my_info, privk := privk_pem, general_info := general_info }

/-- The state the member initialisers of the constructor of `Pbft` set up,
given the initial joint state of the collaborators. -/
def Pbft.init {σ : Type} (id : NodeId) (world : σ) : Pbft σ :=
  { local_id := id
    nodes := fun _ => none
    global_commit_seqno := 1
    last_commit_view := 0
    latest_stable_ae_index := 0
    public_only := false
    view_change_list := List.replicate 1 { view := 0, min_global_commit := 0 }
    world := world
    calls := [] }

/-- The method `get_view()`. -/
def Pbft.get_view {σ τ : Type} (E : Env σ τ) (s : Pbft σ) : View :=
  E.view s.world + 2

/-- Appends one call to the record of calls. -/
def Pbft.log {σ : Type} (s : Pbft σ) (c : Call) : Pbft σ :=
  { s with calls := s.calls ++ [c] }

/-- The `for` loop of the append-entries case of `recv_message`, from the
test of its condition with loop variable `i` and read cursor `data`; `fuel`
bounds the number of iterations. -/
def recv_append_entries_loop {σ τ : Type} (E : Env σ τ) (r : AppendEntries) :
    Nat → Index → List Byte → Pbft σ → Pbft σ × Outcome
  | 0, _, _, s => (s, Outcome.returned)
  | fuel + 1, i, data, s =>
    if i ≤ r.idx then
      let append_entries_index := E.current_version s.world
      if i ≤ append_entries_index then
        recv_append_entries_loop E r fuel (i + 1) (E.skip_entry data)
          (s.log (Call.skip_entry i))
      else
        let ret := E.get_entry data
        let s1 := s.log (Call.get_entry i)
        if !ret.1.2 then
          ({ s1 with world := E.truncate s1.world r.prev_idx }.log (Call.truncate r.prev_idx),
            Outcome.returned)
        else
          let version := E.current_version s1.world
          let res := E.deserialise_views s1.world ret.1.1 s1.public_only
          let s2 := { s1 with world := res.2.2 }.log
            (Call.deserialise_views i version ret.1.1 res.1)
          match res.1 with
          | DeserialiseSuccess.FAILED =>
            recv_append_entries_loop E r fuel (i + 1) ret.2 s2
          | DeserialiseSuccess.PASS =>
            recv_append_entries_loop E r fuel (i + 1) ret.2
              ({ s2 with world := E.playback_request s2.world res.2.1 }.log
                (Call.playback_request i))
          | DeserialiseSuccess.PASS_PRE_PREPARE =>
            recv_append_entries_loop E r fuel (i + 1) ret.2
              ({ s2 with world := E.playback_pre_prepare s2.world res.2.1 }.log
                (Call.playback_pre_prepare i))
          | DeserialiseSuccess.other _ => (s2, Outcome.threw)
    else (s, Outcome.returned)

/-- The method `recv_message(data, size)`; `size` is the length of `data`.
The loop runs on `idx - prev_idx` units of fuel, one per index of
`prev_idx + 1 .. idx`, which it never exhausts (see
`recv_append_entries_loop_fuel`). -/
def recv_message {σ τ : Type} (d : Decls) (E : Env σ τ) (s : Pbft σ) (data : List Byte) :
    Pbft σ × Outcome :=
  match serialized_peek d.sizeof_PbftMsgType data with
  | none => (s, Outcome.threw)
  | some t =>
    if t = d.pbft_message then
      match serialized_skip data d.sizeof_PbftHeader with
      | none => (s, Outcome.threw)
      | some data1 =>
        ({ s with world := E.receive_message s.world data1 data1.length }.log
          (Call.receive_message data1 data1.length), Outcome.returned)
    else if t = d.pbft_append_entries then
      if E.IsExecutionPending s.world then (s, Outcome.returned)
      else
        let append_entries_index := E.current_version s.world
        match E.recv_authenticated s.world data with
        | none => (s, Outcome.returned)
        | some (r, data1) =>
          let nodes : NodesMap :=
            match s.nodes r.from_node with
            | some _ => Function.update s.nodes r.from_node (some r.idx)
            | none => Function.update s.nodes r.from_node (some r.idx)
          let s1 := { s with nodes := nodes }
          if r.idx ≤ append_entries_index then (s1, Outcome.returned)
          else
            recv_append_entries_loop E r (r.idx - r.prev_idx).toNat (r.prev_idx + 1) data1 s1
    else (s, Outcome.returned)

/-! ## Prepare -/

/-- Modelled from the spec: libbyz/Message.h is not among the sources. The
fixed header every message starts with: `tag`, `size`, `extra`, `from_id`. -/
structure Message_rep where
  tag : Nat
  size : Nat
  extra : Nat
  from_id : Nat
  deriving DecidableEq, Repr

/-- The `Digest` of libbyz/Digest.h, a fixed-width hash compared word by
word. -/
structure Digest where
  d : List Nat
  deriving DecidableEq, Repr

/-- The struct `Prepare_rep` (without `SIGN_BATCH` and `USE_PKEY`): the
message header it derives from, then its own fields. -/
structure Prepare_rep extends Message_rep where
  view : View
  seqno : SeqNo
  digest : Digest
  id : Int
  padding : Int
  deriving DecidableEq, Repr

/-- The class `Prepare`: a message whose contents are read as a
`Prepare_rep`. -/
structure Prepare where
  rep : Prepare_rep
  deriving DecidableEq, Repr

/-- The method `Prepare::is_proof`. -/
def Prepare.is_proof (p : Prepare) : Bool :=
  p.rep.extra != 0

/-! ## Definitions used to state the properties -/

/-- The range `(start_idx, end_idx)` of the call of
`send_append_entries_range` that put this header on the channel: the header
carries `idx = end_idx` and `prev_idx = start_idx - 1`. -/
def ChannelMsg.range : ChannelMsg → Option (Index × Index)
  | ChannelMsg.bytes _ _ => none
  | ChannelMsg.append_entries _ ae => some (ae.prev_idx + 1, ae.idx)

/-- The ranges of the append-entries headers of a channel trace, in order. -/
def sent_ranges (sent : List ChannelMsg) : List (Index × Index) :=
  sent.filterMap ChannelMsg.range

/-- The ranges the loop of `send_append_entries` passes to
`send_append_entries_range`, in order, as a function of the loop variables
alone. -/
def loop_ranges (latest : Index) : Nat → Index → Index → List (Index × Index)
  | 0, _, _ => []
  | fuel + 1, i, start_idx =>
    if i < latest then
      (start_idx, i) :: loop_ranges latest fuel (i + entries_batch_size) (min (i + 1) latest)
    else []

/-- The value of `start_idx` when the loop of `send_append_entries` ends. -/
def loop_start (latest : Index) : Nat → Index → Index → Index
  | 0, _, start_idx => start_idx
  | fuel + 1, i, start_idx =>
    if i < latest then
      loop_start latest fuel (i + entries_batch_size) (min (i + 1) latest)
    else start_idx

/-- All the ranges one call `send_append_entries(to, start_idx)` passes to
`send_append_entries_range` when the latest stable index is `latest`. -/
def all_ranges (latest start_idx : Index) : List (Index × Index) :=
  let end_idx : Index :=
    if latest = 0 then 0 else min (start_idx + entries_batch_size) latest
  let fuel := (latest - end_idx).toNat
  loop_ranges latest fuel end_idx start_idx ++
    (if latest = 0 ∨ end_idx ≤ latest then [(loop_start latest fuel end_idx start_idx, latest)]
     else [])

/-- The state after the calls of `send_append_entries_range` on the given
ranges, in order. -/
def send_ranges (d : Decls) (to_node : NodeId) (s : PbftEnclaveNetwork)
    (rs : List (Index × Index)) : PbftEnclaveNetwork :=
  rs.foldl (fun acc r => send_append_entries_range d acc to_node r.1 r.2) s

/-- The channel entry of the call of `send_append_entries_range` on a range. -/
def range_msg (d : Decls) (id to_node : NodeId) (r : Index × Index) : ChannelMsg :=
  ChannelMsg.append_entries to_node
    { msg := d.pbft_append_entries, from_node := id, idx := r.2, prev_idx := r.1 - 1 }

/-- The bytes of a `PbftHeader {pbft_message, id}` followed by the contents
of a message. -/
def wire_bytes (d : Decls) (id : NodeId) (msg : Message) : List Byte :=
  PbftHeader.bytes d { msg := d.pbft_message, from_node := id } ++ msg.contents

/-- The value `match_idx` that `Send` reads from the map for a peer. -/
def match_idx (nodes : NodesMap) (to_node : NodeId) : Index :=
  match nodes to_node with
  | some v => v
  | none => 0

/-- The indices of the entries deserialised into the store, in call order. -/
def deserialised_indices (calls : List Call) : List Index :=
  calls.filterMap fun c =>
    match c with
    | Call.deserialise_views i _ _ _ => some i
    | _ => none

/-! ## Concrete instances the properties are evaluated on -/

/-- A choice of the declared values: 64-bit `PbftMsgType` and `NodeId`. -/
def sample_decls : Decls :=
  { pbft_message := 1000
    pbft_append_entries := 1001
    Append_entries_tag := 19
    sizeof_PbftMsgType := 8
    sizeof_NodeId := 8
    pbft_message_fits := by decide
    pbft_append_entries_fits := by decide
    enumerators_differ := by decide }

/-- A sample of the collaborators. The joint state is the version of the
store. A serialised log entry is two bytes, the version it carries and a
flag: flag 0 makes `deserialise_views` fail and leaves the store as it is,
flag 1 passes and flag 2 passes as a pre-prepare, both moving the store to
the entry's version. An append-entries message is the message type on 8
bytes, then one byte each for sender, `idx` and `prev_idx`, then the
entries, each preceded by its length on one byte. -/
def sample_env : Env Index Unit :=
  { current_version := fun v => v
    deserialise_views := fun v entry _ =>
      match entry with
      | [ver, flag] =>
        if flag = 0 then (DeserialiseSuccess.FAILED, (), v)
        else if flag = 1 then (DeserialiseSuccess.PASS, (), (ver.toNat : Int))
        else if flag = 2 then (DeserialiseSuccess.PASS_PRE_PREPARE, (), (ver.toNat : Int))
        else (DeserialiseSuccess.other flag.toNat, (), v)
      | _ => (DeserialiseSuccess.FAILED, (), v)
    IsExecutionPending := fun _ => false
    receive_message := fun v _ _ => v
    playback_request := fun v _ => v
    playback_pre_prepare := fun v _ => v
    view := fun _ => 0
    recv_authenticated := fun _ data =>
      match data.drop 8 with
      | sender :: idx :: prev_idx :: rest =>
        some ({ msg := le_value (data.take 8), from_node := sender.toNat,
                idx := (idx.toNat : Int), prev_idx := (prev_idx.toNat : Int) }, rest)
      | _ => none
    get_entry := fun data =>
      match data with
      | [] => (([], false), [])
      | n :: rest =>
        if rest.length < n.toNat then (([], false), []) else
          ((rest.take n.toNat, true), rest.drop n.toNat)
    skip_entry := fun data =>
      match data with
      | [] => []
      | n :: rest => rest.drop n.toNat
    truncate := fun v _ => v }

/-- The bytes of a sample append-entries message from node 7 with the given
`idx` and `prev_idx`, followed by the given entries. -/
def sample_append_entries (idx prev_idx : Byte) (entries : List (List Byte)) : List Byte :=
  le_bytes 8 sample_decls.pbft_append_entries ++ [7, idx, prev_idx]
    ++ (entries.map fun e => UInt8.ofNat e.length :: e).flatten

/-- A network adapter of node `id` with an empty map, no traffic so far, and
the given latest stable index. -/
def sample_network (id : NodeId) (latest : Index) : PbftEnclaveNetwork :=
  { id := id
    nodes := fun _ => none
    latest_stable_ae_index := latest
    serialized_msg := []
    n2n_sent := []
    received := [] }

/-! ## Pbft: global commit and view lookup -/

/-- The lambda `global_commit_cb` of the constructor of `Pbft`, on the
members its context `GlobalCommitInfo` points to. `NoVersion` is
`kv::NoVersion`, declared outside the embedded sources and taken as a
parameter; `compact` is the store's `compact(version)` on the joint state of
the collaborators. -/
def global_commit_cb {σ : Type} (NoVersion : SeqNo) (compact : σ → SeqNo → σ) (s : Pbft σ)
    (version : SeqNo) (view : View) : Pbft σ :=
  if version = NoVersion ∨ version < s.global_commit_seqno then s
  else
    let s1 := { s with global_commit_seqno := version }
    let s2 :=
      if s1.last_commit_view < view then
        { s1 with view_change_list :=
            s1.view_change_list ++ [{ view := view, min_global_commit := version }] }
      else s1
    { s2 with world := compact s2.world version }

/-- The loop of `get_view(SeqNo)` over the entries from `rbegin()` on: the
first entry met with `min_global_commit <= seqno` decides; `none` when the
loop ends without one, where the method throws `std::logic_error`. -/
def get_view_loop (seqno : SeqNo) : List ViewChangeInfo → Option View
  | [] => none
  | info :: rest =>
    if info.min_global_commit ≤ seqno then some (info.view + 2)
    else get_view_loop seqno rest

/-- The method `get_view(SeqNo seqno)`: the loop runs over `view_change_list`
in reverse. -/
def Pbft.get_view_seqno {σ : Type} (s : Pbft σ) (seqno : SeqNo) : Option View :=
  get_view_loop seqno s.view_change_list.reverse

/-- The method `get_commit_seqno()`. -/
def Pbft.get_commit_seqno {σ : Type} (s : Pbft σ) : SeqNo :=
  s.global_commit_seqno

/-- The state after a sequence of global-commit callbacks, each given as
`(version, view)`, in order. The states reachable from construction are
`after_global_commits _ _ (Pbft.init id world) cbs`. -/
def after_global_commits {σ : Type} (NoVersion : SeqNo) (compact : σ → SeqNo → σ)
    (s : Pbft σ) (cbs : List (SeqNo × View)) : Pbft σ :=
  cbs.foldl (fun acc c => global_commit_cb NoVersion compact acc c.1 c.2) s

/-! ## Prepare: accessors, match, convert -/

/-- The method `Prepare::view`. -/
def Prepare.view (p : Prepare) : View := p.rep.view

/-- The method `Prepare::seqno`. -/
def Prepare.seqno (p : Prepare) : SeqNo := p.rep.seqno

/-- The method `Prepare::id`. -/
def Prepare.id (p : Prepare) : Int := p.rep.id

/-- The method `Prepare::digest`. -/
def Prepare.digest (p : Prepare) : Digest := p.rep.digest

/-- The method `Prepare::match`. The macro `PBFT_ASSERT` is declared outside
the embedded sources; a call that violates the asserted condition (view or
sequence number differ) is outside the method's contract and has the result
`none`, any other call returns the comparison of the digests. -/
def Prepare.match_ (p q : Prepare) : Option Bool :=
  if p.view = q.view ∧ p.seqno = q.seqno then some (p.digest == q.digest) else none

/-- Modelled from the spec: `Prepare::convert` is only declared in Prepare.h,
its body (Prepare.cpp) is not among the sources. The declaration says: if
`m1` has the right size and tag, casts `m1` to a `Prepare` pointer, returns
the pointer in `m2` and returns true; otherwise, it returns false. The tag of
Prepare messages, the test for the right size and the reading of a generic
message as a `Prepare` (the cast) are parameters; `m2` is the pointer
variable passed by reference, and the result is the returned flag with the
value of `m2` after the call. -/
def Prepare.convert (Prepare_tag : Nat) (right_size : Nat → Bool) (cast : Message → Prepare)
    (m1 : Message) (m2 : Option Prepare) : Bool × Option Prepare :=
  if m1.tag = Prepare_tag ∧ right_size m1.size = true then (true, some (cast m1))
  else (false, m2)

/-- A sample Prepare message for the given view, sequence number, digest word
and replica id. -/
def sample_prepare (view : View) (seqno : SeqNo) (digest : Nat) (id : Int) : Prepare :=
  { rep :=
      { tag := 4, size := 80, extra := 0, from_id := 0
        view := view, seqno := seqno, digest := { d := [digest] }, id := id, padding := 0 } }

/-! ## Index ranges and the indices a receive loop visits -/

/-- The indices `a, a + 1, ..., b` in increasing order (empty when `b < a`). -/
def index_range (a b : Index) : List Index :=
  (List.range (b + 1 - a).toNat).map fun (n : Nat) => a + (n : Int)

/-- The header of the `for` statement of the append-entries case of
`recv_message` alone: the values the loop variable takes from `i` on while
`i <= r.idx`, the body left aside; `fuel` bounds their number. -/
def recv_loop_indices (r : AppendEntries) : Nat → Index → List Index
  | 0, _ => []
  | fuel + 1, i => if i ≤ r.idx then i :: recv_loop_indices r fuel (i + 1) else []

/-- The indices of the iterations recorded in a list of calls, in order:
every iteration of the receive loop that reaches the ledger calls either
`skip_entry` or `get_entry`, once. -/
def visited_indices (calls : List Call) : List Index :=
  calls.filterMap fun c =>
    match c with
    | Call.skip_entry i => some i
    | Call.get_entry i => some i
    | _ => none

/-- The index an entry call is made for: `none` for `receive_message` and
`truncate`, which are not about one entry. -/
def Call.index : Call → Option Index
  | Call.receive_message _ _ => none
  | Call.skip_entry i => some i
  | Call.get_entry i => some i
  | Call.truncate _ => none
  | Call.deserialise_views i _ _ _ => some i
  | Call.playback_request i => some i
  | Call.playback_pre_prepare i => some i

/-- The shape of the calls of a receive loop entered at index `i` whose
`for` header ranges over `indices`, given the calls `calls0` made before and
the result `res` of the loop. The calls `new` the loop adds are such that:
the indices visited form an initial segment of `indices`; they are all of
`indices` when the loop returns without a `truncate`; a `truncate` is for
`r.prev_idx`, is the last call, directly follows the `get_entry` of some
index `j`, and every entry call before it is for an index below `j`; and no
entry call is for an index below `i`. -/
def recv_loop_shape {σ : Type} (r : AppendEntries) (i : Index) (indices : List Index)
    (calls0 : List Call) (res : Pbft σ × Outcome) : Prop :=
  ∃ new, res.1.calls = calls0 ++ new
    ∧ visited_indices new <+: indices
    ∧ (res.2 = Outcome.returned → (∀ p, Call.truncate p ∉ new) →
        visited_indices new = indices)
    ∧ (∀ p, Call.truncate p ∈ new →
        p = r.prev_idx
          ∧ ∃ pre j, new = pre ++ [Call.get_entry j, Call.truncate r.prev_idx]
              ∧ (∀ c ∈ pre, ∀ k, c.index = some k → k < j)
              ∧ ∀ q, Call.truncate q ∉ pre)
    ∧ (∀ c ∈ new, ∀ k, c.index = some k → i ≤ k)

theorem range_nodes (d : Decls) (s : PbftEnclaveNetwork) (to_node : NodeId) (a b : Index) :
    (send_append_entries_range d s to_node a b).nodes
      = Function.update s.nodes to_node (some b) := by
  unfold send_append_entries_range
  cases s.nodes to_node <;> rfl

theorem range_sent (d : Decls) (s : PbftEnclaveNetwork) (to_node : NodeId) (a b : Index) :
    (send_append_entries_range d s to_node a b).n2n_sent
      = s.n2n_sent ++ [range_msg d s.id to_node (a, b)] := rfl

theorem range_latest (d : Decls) (s : PbftEnclaveNetwork) (to_node : NodeId) (a b : Index) :
    (send_append_entries_range d s to_node a b).latest_stable_ae_index
      = s.latest_stable_ae_index := rfl

theorem range_id (d : Decls) (s : PbftEnclaveNetwork) (to_node : NodeId) (a b : Index) :
    (send_append_entries_range d s to_node a b).id = s.id := rfl

theorem range_received (d : Decls) (s : PbftEnclaveNetwork) (to_node : NodeId) (a b : Index) :
    (send_append_entries_range d s to_node a b).received = s.received := rfl

theorem range_serialized_msg (d : Decls) (s : PbftEnclaveNetwork) (to_node : NodeId)
    (a b : Index) :
    (send_append_entries_range d s to_node a b).serialized_msg = s.serialized_msg := rfl

theorem send_ranges_nil (d : Decls) (to_node : NodeId) (s : PbftEnclaveNetwork) :
    send_ranges d to_node s [] = s := rfl

theorem send_ranges_cons (d : Decls) (to_node : NodeId) (s : PbftEnclaveNetwork)
    (r : Index × Index) (rs : List (Index × Index)) :
    send_ranges d to_node s (r :: rs)
      = send_ranges d to_node (send_append_entries_range d s to_node r.1 r.2) rs := rfl

theorem send_ranges_append (d : Decls) (to_node : NodeId) (s : PbftEnclaveNetwork)
    (rs ts : List (Index × Index)) :
    send_ranges d to_node s (rs ++ ts) = send_ranges d to_node (send_ranges d to_node s rs) ts := by
  simp [send_ranges, List.foldl_append]

theorem send_ranges_latest (d : Decls) (to_node : NodeId) (rs : List (Index × Index)) :
    ∀ s : PbftEnclaveNetwork,
      (send_ranges d to_node s rs).latest_stable_ae_index = s.latest_stable_ae_index := by
  induction rs with
  | nil => intro s; rfl
  | cons r rs ih => intro s; rw [send_ranges_cons, ih, range_latest]

theorem send_ranges_id (d : Decls) (to_node : NodeId) (rs : List (Index × Index)) :
    ∀ s : PbftEnclaveNetwork, (send_ranges d to_node s rs).id = s.id := by
  induction rs with
  | nil => intro s; rfl
  | cons r rs ih => intro s; rw [send_ranges_cons, ih, range_id]

theorem send_ranges_received (d : Decls) (to_node : NodeId) (rs : List (Index × Index)) :
    ∀ s : PbftEnclaveNetwork, (send_ranges d to_node s rs).received = s.received := by
  induction rs with
  | nil => intro s; rfl
  | cons r rs ih => intro s; rw [send_ranges_cons, ih, range_received]

theorem send_ranges_serialized_msg (d : Decls) (to_node : NodeId)
    (rs : List (Index × Index)) :
    ∀ s : PbftEnclaveNetwork,
      (send_ranges d to_node s rs).serialized_msg = s.serialized_msg := by
  induction rs with
  | nil => intro s; rfl
  | cons r rs ih => intro s; rw [send_ranges_cons, ih, range_serialized_msg]

theorem send_ranges_sent (d : Decls) (to_node : NodeId) (rs : List (Index × Index)) :
    ∀ s : PbftEnclaveNetwork,
      (send_ranges d to_node s rs).n2n_sent
        = s.n2n_sent ++ rs.map (range_msg d s.id to_node) := by
  induction rs with
  | nil => intro s; simp [send_ranges_nil]
  | cons r rs ih =>
    intro s
    rw [send_ranges_cons, ih, range_sent, range_id]
    simp

theorem send_ranges_nodes_other (d : Decls) (to_node : NodeId) (rs : List (Index × Index)) :
    ∀ (s : PbftEnclaveNetwork) (p : NodeId), p ≠ to_node →
      (send_ranges d to_node s rs).nodes p = s.nodes p := by
  induction rs with
  | nil => intro s p _; rfl
  | cons r rs ih =>
    intro s p hp
    rw [send_ranges_cons, ih _ p hp, range_nodes, Function.update_noteq hp]

theorem send_ranges_nodes_last (d : Decls) (to_node : NodeId) (rs : List (Index × Index))
    (r : Index × Index) (s : PbftEnclaveNetwork) :
    (send_ranges d to_node s (rs ++ [r])).nodes to_node = some r.2 := by
  rw [send_ranges_append, send_ranges_cons, send_ranges_nil, range_nodes,
    Function.update_same]

/-- The loop of `send_append_entries` performs the calls listed by
`loop_ranges` and leaves `start_idx` at `loop_start`. -/
theorem send_append_entries_loop_eq (d : Decls) (to_node : NodeId) (fuel : Nat) :
    ∀ (i start_idx : Index) (s : PbftEnclaveNetwork),
      send_append_entries_loop d to_node fuel i start_idx s
        = (loop_start s.latest_stable_ae_index fuel i start_idx,
           send_ranges d to_node s (loop_ranges s.latest_stable_ae_index fuel i start_idx)) := by
  induction fuel with
  | zero => intro i start_idx s; rfl
  | succ n ih =>
    intro i start_idx s
    unfold send_append_entries_loop loop_start loop_ranges
    by_cases h : i < s.latest_stable_ae_index
    · simp only [h, if_true]
      rw [ih, range_latest, send_ranges_cons]
    · simp only [h, if_false]
      rfl

/-- One call of `send_append_entries` performs the calls listed by
`all_ranges`. -/
theorem send_append_entries_eq (d : Decls) (s : PbftEnclaveNetwork) (to_node : NodeId)
    (start_idx : Index) :
    send_append_entries d s to_node start_idx
      = send_ranges d to_node s (all_ranges s.latest_stable_ae_index start_idx) := by
  unfold send_append_entries all_ranges
  simp only [send_append_entries_loop_eq, send_ranges_latest]
  generalize (if s.latest_stable_ae_index = 0 then (0 : Index)
    else min (start_idx + entries_batch_size) s.latest_stable_ae_index) = e
  by_cases h : s.latest_stable_ae_index = 0 ∨ e ≤ s.latest_stable_ae_index
  · simp only [h, if_true]
    rw [send_ranges_append]
    rfl
  · simp only [h, if_false, List.append_nil]

/-- The loop of `send_append_entries` ends by its own condition: once the
fuel covers `latest - i`, more fuel changes nothing. -/
theorem send_append_entries_loop_fuel (d : Decls) (to_node : NodeId) (fuel : Nat) :
    ∀ (extra : Nat) (i start_idx : Index) (s : PbftEnclaveNetwork),
      (s.latest_stable_ae_index - i).toNat ≤ fuel →
      send_append_entries_loop d to_node (fuel + extra) i start_idx s
        = send_append_entries_loop d to_node fuel i start_idx s := by
  induction fuel with
  | zero =>
    intro extra i start_idx s h
    have hi : ¬ i < s.latest_stable_ae_index := by
      unfold Index at *
      omega
    cases extra with
    | zero => rfl
    | succ e =>
      rw [Nat.zero_add]
      simp [send_append_entries_loop, hi]
  | succ n ih =>
    intro extra i start_idx s h
    have e : n + 1 + extra = (n + extra) + 1 := by omega
    rw [e]
    unfold send_append_entries_loop
    by_cases hi : i < s.latest_stable_ae_index
    · simp only [hi, if_true]
      apply ih
      rw [range_latest]
      unfold entries_batch_size Index at *
      omega
    · simp only [hi, if_false]

/-! ## Lemmas on serialisation -/

theorem le_bytes_length (w : Nat) : ∀ n : Nat, (le_bytes w n).length = w := by
  induction w with
  | zero => intro n; rfl
  | succ k ih => intro n; simp [le_bytes, ih]

theorem le_value_le_bytes (w : Nat) : ∀ n : Nat, le_value (le_bytes w n) = n % 256 ^ w := by
  induction w with
  | zero => intro n; simp [le_bytes, le_value, Nat.mod_one]
  | succ k ih =>
    intro n
    have h1 : (UInt8.ofNat (n % 256)).toNat = n % 256 := by
      simp [UInt8.toNat, UInt8.ofNat]
    simp only [le_bytes, le_value, ih, h1]
    rw [pow_succ, Nat.mul_comm (256 ^ k) 256, Nat.mod_mul]

theorem PbftHeader_bytes_length (d : Decls) (h : PbftHeader) :
    (h.bytes d).length = d.sizeof_PbftHeader := by
  simp [PbftHeader.bytes, Decls.sizeof_PbftHeader, le_bytes_length]

theorem vector_resize_length (v : List Byte) (n : Nat) : (vector_resize v n).length = n := by
  simp [vector_resize]
  omega

/-- The first write of `Send` into a buffer of the right size does not throw. -/
theorem serialized_write_first (buf b1 : List Byte) (n : Nat) :
    serialized_write { buf := buf, pos := 0, space := b1.length + n } b1
      = some { buf := b1 ++ buf.drop b1.length, pos := b1.length, space := n } := by
  unfold serialized_write
  simp

/-- The second write of `Send` does not throw, and leaves the two blocks in
the buffer, one after the other. -/
theorem serialized_write_second (buf b1 b2 : List Byte)
    (hlen : buf.length = b1.length + b2.length) :
    serialized_write
        { buf := b1 ++ buf.drop b1.length, pos := b1.length, space := b2.length } b2
      = some { buf := b1 ++ b2, pos := b1.length + b2.length, space := 0 } := by
  unfold serialized_write
  simp only [Nat.lt_irrefl, if_false, Nat.sub_self]
  have h1 : List.drop (b1.length + b2.length) (b1 ++ List.drop b1.length buf) = [] :=
    List.drop_eq_nil_of_le (by simp [hlen])
  rw [h1, List.append_nil, List.take_append_of_le_length (Nat.le_refl _), List.take_length]

/-- What `Send` does for a destination other than the node itself: the two
writes succeed and leave the header and the contents in `serialized_msg`;
then either the append-entries path or the channel send is taken. -/
theorem Send_other (d : Decls) (s : PbftEnclaveNetwork) (msg : Message) (p : IPrincipal)
    (h : p.pid ≠ s.id) :
    Send d s msg p = some (msg.size,
      if msg.tag = d.Append_entries_tag then
        if match_idx s.nodes p.pid < s.latest_stable_ae_index then
          send_append_entries d { s with serialized_msg := wire_bytes d s.id msg } p.pid
            (match_idx s.nodes p.pid + 1)
        else { s with serialized_msg := wire_bytes d s.id msg }
      else
        { s with serialized_msg := wire_bytes d s.id msg,
                 n2n_sent := s.n2n_sent ++ [ChannelMsg.bytes p.pid (wire_bytes d s.id msg)] }) := by
  have hh := PbftHeader_bytes_length d { msg := d.pbft_message, from_node := s.id }
  have hsp : d.sizeof_PbftHeader + msg.size
      = (PbftHeader.bytes d { msg := d.pbft_message, from_node := s.id }).length
        + msg.contents.length := by
    rw [hh]; rfl
  unfold Send
  simp only [h, if_false]
  rw [hsp, serialized_write_first]
  simp only []
  rw [serialized_write_second _ _ _ (vector_resize_length _ _)]
  by_cases htag : msg.tag = d.Append_entries_tag
  · simp only [htag, if_true]
    rfl
  · simp only [htag, if_false]
    rfl

/-- The last call of `send_append_entries_range` in `send_append_entries` is
always made: its guard holds for every latest stable index. -/
theorem all_ranges_eq (latest start_idx : Index) :
    ∃ e : Index, all_ranges latest start_idx
      = loop_ranges latest (latest - e).toNat e start_idx
        ++ [(loop_start latest (latest - e).toNat e start_idx, latest)] := by
  unfold all_ranges
  refine ⟨if latest = 0 then 0 else min (start_idx + entries_batch_size) latest, ?_⟩
  have hc : latest = 0
      ∨ (if latest = 0 then (0 : Index) else min (start_idx + entries_batch_size) latest)
          ≤ latest := by
    by_cases h0 : latest = 0
    · exact Or.inl h0
    · right
      simp only [h0, if_false]
      exact min_le_right _ _
  simp only [hc, if_true]

/-- The first range of the loop followed by the last call starts at the
`start_idx` the loop was entered with. -/
theorem loop_ranges_head (latest : Index) (fuel : Nat) (i start_idx : Index) :
    ∃ r rs, loop_ranges latest fuel i start_idx
        ++ [(loop_start latest fuel i start_idx, latest)] = r :: rs
      ∧ r.1 = start_idx := by
  cases fuel with
  | zero => exact ⟨_, [], rfl, rfl⟩
  | succ n =>
    unfold loop_ranges loop_start
    by_cases h : i < latest
    · simp only [h, if_true]
      exact ⟨_, _, rfl, rfl⟩
    · simp only [h, if_false]
      exact ⟨_, [], rfl, rfl⟩

/-- The ranges of one call of `send_append_entries` are never empty, and the
first one starts at the `start_idx` passed. -/
theorem all_ranges_head (latest start_idx : Index) :
    ∃ r rs, all_ranges latest start_idx = r :: rs ∧ r.1 = start_idx := by
  obtain ⟨e, he⟩ := all_ranges_eq latest start_idx
  rw [he]
  exact loop_ranges_head latest _ e start_idx

/-- The ranges read back from the channel entries of a list of ranges are
those ranges. -/
theorem sent_ranges_range_msg (d : Decls) (id to_node : NodeId) (rs : List (Index × Index)) :
    sent_ranges (rs.map (range_msg d id to_node)) = rs := by
  induction rs with
  | nil => rfl
  | cons r rs ih =>
    unfold sent_ranges at ih ⊢
    rw [List.map_cons, List.filterMap_cons]
    simp only [range_msg, ChannelMsg.range, sub_add_cancel]
    rw [ih]

/-- The ranges of the loop of `send_append_entries` followed by the last
call cover at most `entries_batch_size + 1` indices each, when the loop is
entered with `i - start_idx + 1` within that bound and enough fuel. -/
theorem loop_ranges_bound (latest : Index) (fuel : Nat) :
    ∀ i start_idx : Index, (latest - i).toNat ≤ fuel →
      i - start_idx + 1 ≤ entries_batch_size + 1 →
      ∀ r ∈ loop_ranges latest fuel i start_idx ++ [(loop_start latest fuel i start_idx, latest)],
        r.2 - r.1 + 1 ≤ entries_batch_size + 1 := by
  induction fuel with
  | zero =>
    intro i start_idx hf hb r hr
    simp only [loop_ranges, loop_start, List.nil_append, List.mem_singleton] at hr
    subst hr
    unfold entries_batch_size Index at *
    simp only
    omega
  | succ n ih =>
    intro i start_idx hf hb r hr
    unfold loop_ranges loop_start at hr
    by_cases h : i < latest
    · simp only [h, if_true, List.cons_append, List.mem_cons] at hr
      rcases hr with hr | hr
      · subst hr
        exact hb
      · refine ih (i + entries_batch_size) (min (i + 1) latest) ?_ ?_ r hr
        · unfold entries_batch_size Index at *
          omega
        · unfold entries_batch_size Index at *
          omega
    · simp only [h, if_false, List.nil_append, List.mem_singleton] at hr
      subst hr
      unfold entries_batch_size Index at *
      simp only
      omega

/-- Every range one call of `send_append_entries` passes to
`send_append_entries_range` covers at most `entries_batch_size + 1 = 11`
indices, when the latest stable index is not 0. -/
theorem all_ranges_bound (latest start_idx : Index) (h0 : latest ≠ 0) :
    ∀ r ∈ all_ranges latest start_idx, r.2 - r.1 + 1 ≤ entries_batch_size + 1 := by
  unfold all_ranges
  simp only [h0, if_false, false_or, min_le_right, if_true]
  apply loop_ranges_bound
  · exact Nat.le_refl _
  · unfold entries_batch_size Index at *
    omega

/-! ## The network adapter: properties -/

/-- C1: for every message `m` and every principal whose `pid()` is the
adapter's own node id, `Send` returns `m.size()`, hands `m`'s contents, of
`m.size()` bytes, to the receiver's `receive_message` (one more call, after
the earlier ones), sends nothing on the node-to-node channel and leaves the
map `nodes` unchanged. -/
theorem Send_to_self (d : Decls) (s : PbftEnclaveNetwork) (m : Message) (p : IPrincipal)
    (h : p.pid = s.id) :
    ∃ s1, Send d s m p = some (m.size, s1)
      ∧ s1.received = s.received ++ [(m.contents, m.size)]
      ∧ m.contents.length = m.size
      ∧ s1.n2n_sent = s.n2n_sent
      ∧ s1.nodes = s.nodes := by
  unfold Send
  simp only [h, if_true]
  exact ⟨_, rfl, rfl, rfl, rfl, rfl⟩

/-- C1 at a concrete input: node 3 sends a three-byte message to itself. -/
theorem Send_to_self_witness :
    (IPrincipal.mk 3).pid = (sample_network 3 0).id
    ∧ ∃ s1, Send sample_decls (sample_network 3 0) (Message.mk 4 [1, 2, 3]) (IPrincipal.mk 3)
          = some ((Message.mk 4 [1, 2, 3]).size, s1)
      ∧ s1.received
          = (sample_network 3 0).received
            ++ [((Message.mk 4 [1, 2, 3]).contents, (Message.mk 4 [1, 2, 3]).size)]
      ∧ (Message.mk 4 [1, 2, 3]).contents.length = (Message.mk 4 [1, 2, 3]).size
      ∧ s1.n2n_sent = (sample_network 3 0).n2n_sent
      ∧ s1.nodes = (sample_network 3 0).nodes :=
  ⟨rfl, Send_to_self sample_decls (sample_network 3 0) (Message.mk 4 [1, 2, 3])
    (IPrincipal.mk 3) rfl⟩

/-- C3: the code at `start_idx = 1` and `latest_stable_ae_index = 12`: the
ranges passed to `send_append_entries_range` are `(1, 11)` and `(12, 12)`,
and the first one covers `11 - 1 + 1 = 11` indices, more than
`entries_batch_size`. -/
theorem send_append_entries_first_range_has_eleven :
    sent_ranges (send_append_entries sample_decls (sample_network 0 12) 1 1).n2n_sent
      = [(1, 11), (12, 12)]
    ∧ ¬ ((11 : Index) - 1 + 1 ≤ entries_batch_size) := by
  decide

/-- C4: for a message with tag `Append_entries_tag` sent to a peer other than
the node itself, `Send` returns `m.size()` and puts on the channel only
append-entries headers for that peer, never the message: with
`match_idx = nodes[to]` (0 without an entry), when
`match_idx < latest_stable_ae_index` there is at least one header and the
first one is for a range starting at `match_idx + 1` (its `prev_idx` is
`match_idx`), and when `match_idx >= latest_stable_ae_index` nothing is
sent. -/
theorem Send_append_entries_tag (d : Decls) (s : PbftEnclaveNetwork) (m : Message)
    (p : IPrincipal) (htag : m.tag = d.Append_entries_tag) (hdest : p.pid ≠ s.id) :
    ∃ s1 rs, Send d s m p = some (m.size, s1)
      ∧ s1.n2n_sent = s.n2n_sent ++ rs.map (range_msg d s.id p.pid)
      ∧ (∀ c ∈ rs.map (range_msg d s.id p.pid), ∀ q bytes, c ≠ ChannelMsg.bytes q bytes)
      ∧ (match_idx s.nodes p.pid < s.latest_stable_ae_index →
          ∃ r rest, rs = r :: rest ∧ r.1 = match_idx s.nodes p.pid + 1
            ∧ ∃ ae, range_msg d s.id p.pid r = ChannelMsg.append_entries p.pid ae
              ∧ ae.prev_idx = match_idx s.nodes p.pid)
      ∧ (s.latest_stable_ae_index ≤ match_idx s.nodes p.pid → rs = []) := by
  have hbytes : ∀ rs : List (Index × Index), ∀ c ∈ rs.map (range_msg d s.id p.pid),
      ∀ q bytes, c ≠ ChannelMsg.bytes q bytes := by
    intro rs c hc q bytes
    obtain ⟨r, _, hr⟩ := List.mem_map.mp hc
    rw [← hr]
    simp [range_msg]
  rw [Send_other d s m p hdest]
  simp only [htag, if_true]
  by_cases hlt : match_idx s.nodes p.pid < s.latest_stable_ae_index
  · rw [if_pos hlt]
    obtain ⟨r, rest, hr, hr1⟩ :=
      all_ranges_head s.latest_stable_ae_index (match_idx s.nodes p.pid + 1)
    refine ⟨_, r :: rest, rfl, ?_, hbytes _, ?_, ?_⟩
    · rw [send_append_entries_eq, send_ranges_sent]
      simp only []
      rw [hr]
    · intro _
      refine ⟨r, rest, rfl, hr1, _, rfl, ?_⟩
      simp only [hr1]
      unfold Index at *
      omega
    · intro hge
      exact absurd hlt (not_lt.mpr hge)
  · rw [if_neg hlt]
    refine ⟨_, [], rfl, ?_, hbytes _, ?_, ?_⟩
    · simp
    · intro h
      exact absurd h hlt
    · intro _
      rfl

/-- C4 at a concrete input: node 0, whose latest stable index is 12, sends an
append-entries message to node 1, which has no entry in the map. -/
theorem Send_append_entries_tag_witness :
    (Message.mk 19 [7]).tag = sample_decls.Append_entries_tag
    ∧ (IPrincipal.mk 1).pid ≠ (sample_network 0 12).id
    ∧ ∃ s1 rs, Send sample_decls (sample_network 0 12) (Message.mk 19 [7]) (IPrincipal.mk 1)
          = some ((Message.mk 19 [7]).size, s1)
      ∧ s1.n2n_sent = (sample_network 0 12).n2n_sent
          ++ rs.map (range_msg sample_decls (sample_network 0 12).id (IPrincipal.mk 1).pid)
      ∧ (∀ c ∈ rs.map (range_msg sample_decls (sample_network 0 12).id (IPrincipal.mk 1).pid),
          ∀ q bytes, c ≠ ChannelMsg.bytes q bytes)
      ∧ (match_idx (sample_network 0 12).nodes (IPrincipal.mk 1).pid
            < (sample_network 0 12).latest_stable_ae_index →
          ∃ r rest, rs = r :: rest
            ∧ r.1 = match_idx (sample_network 0 12).nodes (IPrincipal.mk 1).pid + 1
            ∧ ∃ ae, range_msg sample_decls (sample_network 0 12).id (IPrincipal.mk 1).pid r
                = ChannelMsg.append_entries (IPrincipal.mk 1).pid ae
              ∧ ae.prev_idx = match_idx (sample_network 0 12).nodes (IPrincipal.mk 1).pid)
      ∧ ((sample_network 0 12).latest_stable_ae_index
            ≤ match_idx (sample_network 0 12).nodes (IPrincipal.mk 1).pid → rs = []) :=
  ⟨rfl, by decide, Send_append_entries_tag sample_decls (sample_network 0 12)
    (Message.mk 19 [7]) (IPrincipal.mk 1) rfl (by decide)⟩

/-- C9: after `send_append_entries(to, start_idx)` the entry of `to` in
`nodes` is `latest_stable_ae_index` and the entry of every other peer is
unchanged, for every `start_idx` and every latest stable index (of either
sign). -/
theorem send_append_entries_nodes (d : Decls) (s : PbftEnclaveNetwork) (to_node : NodeId)
    (start_idx : Index) :
    (send_append_entries d s to_node start_idx).nodes to_node
        = some s.latest_stable_ae_index
      ∧ ∀ p : NodeId, p ≠ to_node →
          (send_append_entries d s to_node start_idx).nodes p = s.nodes p := by
  rw [send_append_entries_eq]
  refine ⟨?_, fun p hp => send_ranges_nodes_other d to_node _ s p hp⟩
  obtain ⟨e, he⟩ := all_ranges_eq s.latest_stable_ae_index start_idx
  rw [he]
  exact send_ranges_nodes_last d to_node _ _ s

/-- C9 at a concrete input: latest stable index 25, sending to node 1 from
index 3; node 2 is another peer. -/
theorem send_append_entries_nodes_witness :
    (send_append_entries sample_decls (sample_network 0 25) 1 3).nodes 1 = some 25
    ∧ (2 : NodeId) ≠ 1
    ∧ (send_append_entries sample_decls (sample_network 0 25) 1 3).nodes 2
        = (sample_network 0 25).nodes 2 :=
  ⟨(send_append_entries_nodes sample_decls (sample_network 0 25) 1 3).1, by decide,
    (send_append_entries_nodes sample_decls (sample_network 0 25) 1 3).2 2 (by decide)⟩

/-! ## The receive path: lemmas -/

theorem log_calls {σ : Type} (s : Pbft σ) (c : Call) : (s.log c).calls = s.calls ++ [c] := rfl

theorem log_world {σ : Type} (s : Pbft σ) (c : Call) : (s.log c).world = s.world := rfl

theorem serialized_peek_wire (d : Decls) (id : NodeId) (m : Message) :
    serialized_peek d.sizeof_PbftMsgType (wire_bytes d id m) = some d.pbft_message := by
  unfold serialized_peek wire_bytes PbftHeader.bytes
  have hlen : ¬ ((le_bytes d.sizeof_PbftMsgType d.pbft_message
      ++ le_bytes d.sizeof_NodeId id ++ m.contents).length < d.sizeof_PbftMsgType) := by
    simp [le_bytes_length]
  rw [if_neg hlen, List.append_assoc,
    List.take_left' (le_bytes_length d.sizeof_PbftMsgType d.pbft_message),
    le_value_le_bytes, Nat.mod_eq_of_lt d.pbft_message_fits]

theorem serialized_skip_wire (d : Decls) (id : NodeId) (m : Message) :
    serialized_skip (wire_bytes d id m) d.sizeof_PbftHeader = some m.contents := by
  unfold serialized_skip wire_bytes
  have hh := PbftHeader_bytes_length d { msg := d.pbft_message, from_node := id }
  have hlen : ¬ ((PbftHeader.bytes d { msg := d.pbft_message, from_node := id }
      ++ m.contents).length < d.sizeof_PbftHeader) := by
    simp [hh]
  rw [if_neg hlen, List.drop_left' hh]

/-- The calls of the append-entries loop entered at index `i`: every entry
it deserialises has an index `j >= i` above the store's version at that
moment, and the deserialised indices increase strictly. -/
theorem recv_append_entries_loop_calls {σ τ : Type} (E : Env σ τ) (r : AppendEntries)
    (fuel : Nat) :
    ∀ (i : Index) (data : List Byte) (s : Pbft σ),
      ∃ new, (recv_append_entries_loop E r fuel i data s).1.calls = s.calls ++ new
        ∧ (∀ j v e res, Call.deserialise_views j v e res ∈ new → v < j ∧ i ≤ j)
        ∧ (deserialised_indices new).Pairwise (· < ·) := by
  induction fuel with
  | zero =>
    intro i data s
    exact ⟨[], by simp [recv_append_entries_loop], by simp, by simp [deserialised_indices]⟩
  | succ n ih =>
    intro i data s
    unfold recv_append_entries_loop
    by_cases hi : i ≤ r.idx
    · rw [if_pos hi]
      simp only []
      by_cases hv : i ≤ E.current_version s.world
      · rw [if_pos hv]
        obtain ⟨new, h1, h2, h3⟩ := ih (i + 1) (E.skip_entry data) (s.log (Call.skip_entry i))
        refine ⟨Call.skip_entry i :: new, ?_, ?_, ?_⟩
        · rw [h1, log_calls]; simp
        · intro j v e res hmem
          simp only [List.mem_cons, reduceCtorEq, false_or] at hmem
          have := h2 j v e res hmem
          unfold Index at *
          omega
        · simpa [deserialised_indices] using h3
      · rw [if_neg hv]
        cases hok : (E.get_entry data).1.2 with
        | false =>
          simp only [Bool.not_false, if_true]
          refine ⟨[Call.get_entry i, Call.truncate r.prev_idx], ?_, ?_, ?_⟩
          · simp [log_calls]
          · intro j v e res hmem
            simp at hmem
          · simp [deserialised_indices]
        | true =>
          simp only [Bool.not_true, Bool.false_eq_true, if_false]
          have key : ∀ res1 : DeserialiseSuccess, ∀ s2 : Pbft σ, ∀ tail : List Call,
              s2.calls = s.calls ++ [Call.get_entry i,
                Call.deserialise_views i (E.current_version s.world) (E.get_entry data).1.1
                  res1] ++ tail →
              (∀ j v e res, Call.deserialise_views j v e res ∈ tail → False) →
              ∀ data2 : List Byte,
              ∃ new, (recv_append_entries_loop E r n (i + 1) data2 s2).1.calls = s.calls ++ new
                ∧ (∀ j v e res, Call.deserialise_views j v e res ∈ new → v < j ∧ i ≤ j)
                ∧ (deserialised_indices new).Pairwise (· < ·) := by
            intro res1 s2 tail hs2 htail data2
            obtain ⟨new, h1, h2, h3⟩ := ih (i + 1) data2 s2
            refine ⟨[Call.get_entry i,
                Call.deserialise_views i (E.current_version s.world) (E.get_entry data).1.1
                  res1]
                ++ tail ++ new, ?_, ?_, ?_⟩
            · rw [h1, hs2]; simp
            · intro j v e res hmem
              simp only [List.mem_append, List.mem_cons, reduceCtorEq, false_or,
                List.mem_singleton, Call.deserialise_views.injEq, List.not_mem_nil,
                or_false] at hmem
              rcases hmem with (⟨hj, hv2, _, _⟩ | ht) | hn
              · subst hj; subst hv2
                unfold Index at *
                omega
              · exact (htail j v e res ht).elim
              · have := h2 j v e res hn
                unfold Index at *
                omega
            · have htl : deserialised_indices tail = [] := by
                unfold deserialised_indices
                rw [List.filterMap_eq_nil_iff]
                intro c hc
                cases c with
                | deserialise_views j v e res => exact (htail j v e res hc).elim
                | _ => rfl
              have hidx : deserialised_indices ([Call.get_entry i,
                  Call.deserialise_views i (E.current_version s.world) (E.get_entry data).1.1
                    res1]
                  ++ tail ++ new) = i :: deserialised_indices new := by
                have e1 : ∀ a b : List Call,
                    deserialised_indices (a ++ b)
                      = deserialised_indices a ++ deserialised_indices b := by
                  intro a b; simp [deserialised_indices]
                rw [e1, e1, htl]
                simp [deserialised_indices]
              rw [hidx, List.pairwise_cons]
              refine ⟨?_, h3⟩
              intro j hj
              have hj2 : ∃ v e res, Call.deserialise_views j v e res ∈ new := by
                unfold deserialised_indices at hj
                rw [List.mem_filterMap] at hj
                obtain ⟨c, hc, hcj⟩ := hj
                cases c with
                | deserialise_views j2 v e res =>
                  simp only [Option.some.injEq] at hcj
                  subst hcj
                  exact ⟨v, e, res, hc⟩
                | _ => simp at hcj
              obtain ⟨v, e, res, hm⟩ := hj2
              have := h2 j v e res hm
              unfold Index at *
              omega
          have hpo : (s.log (Call.get_entry i)).public_only = s.public_only := rfl
          simp only [log_world, hpo]
          cases hres : (E.deserialise_views s.world (E.get_entry data).1.1 s.public_only).1 with
          | FAILED =>
            exact key DeserialiseSuccess.FAILED _ [] (by simp [log_calls]) (by simp) _
          | PASS =>
            exact key DeserialiseSuccess.PASS _ [Call.playback_request i]
              (by simp [log_calls]) (by simp) _
          | PASS_PRE_PREPARE =>
            exact key DeserialiseSuccess.PASS_PRE_PREPARE _ [Call.playback_pre_prepare i]
              (by simp [log_calls]) (by simp) _
          | other k =>
            refine ⟨[Call.get_entry i,
              Call.deserialise_views i (E.current_version s.world) (E.get_entry data).1.1
                (DeserialiseSuccess.other k)], ?_, ?_, ?_⟩
            · simp [log_calls]
            · intro j v e res hmem
              simp only [List.mem_cons, reduceCtorEq, false_or, List.mem_singleton,
                Call.deserialise_views.injEq, List.not_mem_nil, or_false] at hmem
              obtain ⟨hj, hv2, _, _⟩ := hmem
              subst hj; subst hv2
              unfold Index at *
              omega
            · simp [deserialised_indices]
    · rw [if_neg hi]
      exact ⟨[], by simp, by simp, by simp [deserialised_indices]⟩

/-- The append-entries loop ends by its own condition: once the fuel covers
the indices `i .. idx`, more fuel changes nothing. `recv_message` supplies
`idx - prev_idx` units for the loop entered at `prev_idx + 1`. -/
theorem recv_append_entries_loop_fuel {σ τ : Type} (E : Env σ τ) (r : AppendEntries)
    (fuel : Nat) :
    ∀ (extra : Nat) (i : Index) (data : List Byte) (s : Pbft σ),
      (r.idx + 1 - i).toNat ≤ fuel →
      recv_append_entries_loop E r (fuel + extra) i data s
        = recv_append_entries_loop E r fuel i data s := by
  induction fuel with
  | zero =>
    intro extra i data s h
    have hi : ¬ i ≤ r.idx := by
      unfold Index at *
      omega
    cases extra with
    | zero => rfl
    | succ e =>
      rw [Nat.zero_add]
      simp [recv_append_entries_loop, hi]
  | succ n ih =>
    intro extra i data s h
    have e : n + 1 + extra = (n + extra) + 1 := by omega
    have ih1 : ∀ (data1 : List Byte) (s1 : Pbft σ),
        recv_append_entries_loop E r (n + extra) (i + 1) data1 s1
          = recv_append_entries_loop E r n (i + 1) data1 s1 := by
      intro data1 s1
      apply ih
      unfold Index at *
      omega
    rw [e]
    unfold recv_append_entries_loop
    simp only [ih1]

/-- What `recv_message` does on the bytes `Send` builds for a PBFT message:
it strips the header and hands the contents to `receive_message`. -/
theorem recv_message_wire {σ τ : Type} (d : Decls) (E : Env σ τ) (t : Pbft σ) (id : NodeId)
    (m : Message) :
    recv_message d E t (wire_bytes d id m)
      = ({ t with world := E.receive_message t.world m.contents m.size }.log
          (Call.receive_message m.contents m.size), Outcome.returned) := by
  unfold recv_message
  rw [serialized_peek_wire]
  simp only [if_true]
  rw [serialized_skip_wire]
  rfl

/-! ## The receive path and the remaining methods: properties -/

/-- C2: wire round trip. For every message `m` whose tag is not
`Append_entries_tag` and every destination other than the sender, `Send`
returns `m.size()` and gives the channel, for that destination, the bytes of
a `PbftHeader {pbft_message, sender id}` followed by `m`'s contents; and
`recv_message` applied to those bytes, in any state of any receiving
replica, returns after one call `receive_message(data, size)` with `data`
equal to `m`'s contents and `size = m.size()`: the pair the self-send path
of `Send` delivers. -/
theorem Send_recv_message_round_trip {σ τ : Type} (d : Decls) (E : Env σ τ)
    (s : PbftEnclaveNetwork) (t : Pbft σ) (m : Message) (p : IPrincipal)
    (htag : m.tag ≠ d.Append_entries_tag) (hdest : p.pid ≠ s.id) :
    ∃ s1, Send d s m p = some (m.size, s1)
      ∧ s1.n2n_sent = s.n2n_sent
          ++ [ChannelMsg.bytes p.pid
                (PbftHeader.bytes d { msg := d.pbft_message, from_node := s.id } ++ m.contents)]
      ∧ (recv_message d E t
            (PbftHeader.bytes d { msg := d.pbft_message, from_node := s.id } ++ m.contents)).2
          = Outcome.returned
      ∧ (recv_message d E t
            (PbftHeader.bytes d { msg := d.pbft_message, from_node := s.id } ++ m.contents)).1.calls
          = t.calls ++ [Call.receive_message m.contents m.size]
      ∧ (recv_message d E t
            (PbftHeader.bytes d { msg := d.pbft_message, from_node := s.id } ++ m.contents)).1.world
          = E.receive_message t.world m.contents m.size
      ∧ m.contents.length = m.size
      ∧ ∃ s2, Send d s m { pid := s.id } = some (m.size, s2)
          ∧ s2.received = s.received ++ [(m.contents, m.size)] := by
  have hw := recv_message_wire d E t s.id m
  unfold wire_bytes at hw
  rw [Send_other d s m p hdest, if_neg htag, hw]
  refine ⟨_, rfl, rfl, rfl, rfl, rfl, rfl, ?_⟩
  unfold Send
  simp only [if_true]
  exact ⟨_, rfl, rfl⟩

/-- C2 at a concrete input: node 0 sends a three-byte message with tag 4 to
node 1, which is in its initial state. -/
theorem Send_recv_message_round_trip_witness :
    (Message.mk 4 [1, 2, 3]).tag ≠ sample_decls.Append_entries_tag
    ∧ (IPrincipal.mk 1).pid ≠ (sample_network 0 0).id
    ∧ ∃ s1, Send sample_decls (sample_network 0 0) (Message.mk 4 [1, 2, 3]) (IPrincipal.mk 1)
          = some ((Message.mk 4 [1, 2, 3]).size, s1)
      ∧ s1.n2n_sent = (sample_network 0 0).n2n_sent
          ++ [ChannelMsg.bytes (IPrincipal.mk 1).pid
                (PbftHeader.bytes sample_decls
                  { msg := sample_decls.pbft_message, from_node := (sample_network 0 0).id }
                  ++ (Message.mk 4 [1, 2, 3]).contents)]
      ∧ (recv_message sample_decls sample_env (Pbft.init 1 (0 : Index))
            (PbftHeader.bytes sample_decls
              { msg := sample_decls.pbft_message, from_node := (sample_network 0 0).id }
              ++ (Message.mk 4 [1, 2, 3]).contents)).2
          = Outcome.returned
      ∧ (recv_message sample_decls sample_env (Pbft.init 1 (0 : Index))
            (PbftHeader.bytes sample_decls
              { msg := sample_decls.pbft_message, from_node := (sample_network 0 0).id }
              ++ (Message.mk 4 [1, 2, 3]).contents)).1.calls
          = (Pbft.init 1 (0 : Index)).calls
            ++ [Call.receive_message (Message.mk 4 [1, 2, 3]).contents
                  (Message.mk 4 [1, 2, 3]).size]
      ∧ (recv_message sample_decls sample_env (Pbft.init 1 (0 : Index))
            (PbftHeader.bytes sample_decls
              { msg := sample_decls.pbft_message, from_node := (sample_network 0 0).id }
              ++ (Message.mk 4 [1, 2, 3]).contents)).1.world
          = sample_env.receive_message (Pbft.init 1 (0 : Index)).world
              (Message.mk 4 [1, 2, 3]).contents (Message.mk 4 [1, 2, 3]).size
      ∧ (Message.mk 4 [1, 2, 3]).contents.length = (Message.mk 4 [1, 2, 3]).size
      ∧ ∃ s2, Send sample_decls (sample_network 0 0) (Message.mk 4 [1, 2, 3])
              { pid := (sample_network 0 0).id }
            = some ((Message.mk 4 [1, 2, 3]).size, s2)
          ∧ s2.received = (sample_network 0 0).received
              ++ [((Message.mk 4 [1, 2, 3]).contents, (Message.mk 4 [1, 2, 3]).size)] :=
  ⟨by decide, by decide,
    Send_recv_message_round_trip sample_decls sample_env (sample_network 0 0)
      (Pbft.init 1 (0 : Index)) (Message.mk 4 [1, 2, 3]) (IPrincipal.mk 1)
      (by decide) (by decide)⟩

/-- C5: the code on an append-entries message for indices 1 and 2 whose first
entry fails to deserialise (`FAILED`) and whose second entry passes, received
at store version 0: after the failure on entry 1 the loop goes on, entry 2 is
deserialised into the store and played back, and the store ends at version 2. -/
theorem recv_message_continues_after_failed :
    (recv_message sample_decls sample_env (Pbft.init 1 (0 : Index))
        (sample_append_entries 2 0 [[1, 0], [2, 1]])).1.calls
      = [Call.get_entry 1, Call.deserialise_views 1 0 [1, 0] DeserialiseSuccess.FAILED,
         Call.get_entry 2, Call.deserialise_views 2 0 [2, 1] DeserialiseSuccess.PASS,
         Call.playback_request 2]
    ∧ (recv_message sample_decls sample_env (Pbft.init 1 (0 : Index))
        (sample_append_entries 2 0 [[1, 0], [2, 1]])).1.world = 2
    ∧ (recv_message sample_decls sample_env (Pbft.init 1 (0 : Index))
        (sample_append_entries 2 0 [[1, 0], [2, 1]])).2 = Outcome.returned := by
  decide

/-- C6 as stated fails: on a header `(idx, prev_idx) = (3, 1)` received at
store version 0, the entry with index 2 is deserialised into the store while
the store's version is 0, not 1. -/
theorem recv_message_deserialises_across_gap :
    ∃ i v e res,
      Call.deserialise_views i v e res
          ∈ (recv_message sample_decls sample_env (Pbft.init 1 (0 : Index))
              (sample_append_entries 3 1 [[2, 1], [3, 1]])).1.calls
        ∧ v ≠ i - 1 :=
  ⟨2, 0, [2, 1], DeserialiseSuccess.PASS, by decide, by decide⟩

/-- C6, amended: the entries `recv_message` deserialises into the store are
taken in strictly increasing index order, and an entry with index `i` is
deserialised only when the store's current version is below `i`, that is at
most `i - 1`; this holds for every received message, every header in it and
every state of the store. -/
theorem recv_message_deserialise_order {σ τ : Type} (d : Decls) (E : Env σ τ) (s : Pbft σ)
    (data : List Byte) :
    ∃ new, (recv_message d E s data).1.calls = s.calls ++ new
      ∧ (∀ i v e res, Call.deserialise_views i v e res ∈ new → v ≤ i - 1)
      ∧ (deserialised_indices new).Pairwise (· < ·) := by
  have hnil : ∃ new : List Call, s.calls = s.calls ++ new
      ∧ (∀ i v e res, Call.deserialise_views i v e res ∈ new → v ≤ i - 1)
      ∧ (deserialised_indices new).Pairwise (· < ·) :=
    ⟨[], by simp, by simp, by simp [deserialised_indices]⟩
  unfold recv_message
  cases serialized_peek d.sizeof_PbftMsgType data with
  | none => exact hnil
  | some t =>
    simp only []
    by_cases h1 : t = d.pbft_message
    · rw [if_pos h1]
      cases serialized_skip data d.sizeof_PbftHeader with
      | none => exact hnil
      | some data1 =>
        exact ⟨[Call.receive_message data1 data1.length], rfl, by simp,
          by simp [deserialised_indices]⟩
    · rw [if_neg h1]
      by_cases h2 : t = d.pbft_append_entries
      · rw [if_pos h2]
        cases E.IsExecutionPending s.world with
        | true => exact hnil
        | false =>
          simp only [Bool.false_eq_true, if_false]
          cases E.recv_authenticated s.world data with
          | none => exact hnil
          | some rd =>
            obtain ⟨r, data1⟩ := rd
            simp only []
            by_cases h3 : r.idx ≤ E.current_version s.world
            · rw [if_pos h3]
              exact hnil
            · rw [if_neg h3]
              obtain ⟨new, e1, e2, e3⟩ :=
                recv_append_entries_loop_calls E r (r.idx - r.prev_idx).toNat (r.prev_idx + 1)
                  data1
                  { s with nodes :=
                      match s.nodes r.from_node with
                      | some _ => Function.update s.nodes r.from_node (some r.idx)
                      | none => Function.update s.nodes r.from_node (some r.idx) }
              refine ⟨new, e1, ?_, e3⟩
              intro i v e res hmem
              have := e2 i v e res hmem
              unfold Index at *
              omega
      · rw [if_neg h2]
        exact hnil

/-- C6, amended, at a concrete input: a header `(idx, prev_idx) = (3, 1)`
with two passing entries, received at store version 0. -/
theorem recv_message_deserialise_order_witness :
    ∃ new, (recv_message sample_decls sample_env (Pbft.init 1 (0 : Index))
          (sample_append_entries 3 1 [[2, 1], [3, 1]])).1.calls
        = (Pbft.init 1 (0 : Index)).calls ++ new
      ∧ (∀ i v e res, Call.deserialise_views i v e res ∈ new → v ≤ i - 1)
      ∧ (deserialised_indices new).Pairwise (· < ·) :=
  recv_message_deserialise_order sample_decls sample_env (Pbft.init 1 (0 : Index))
    (sample_append_entries 3 1 [[2, 1], [3, 1]])

/-- C7: `get_view()` returns the receiver's current view plus 2, in every
state. -/
theorem get_view_eq {σ τ : Type} (E : Env σ τ) (s : Pbft σ) :
    Pbft.get_view E s = E.view s.world + 2 := rfl

/-- C8: for every choice of the constructor arguments, the configuration the
constructor passes to `Byz_init_replica` has `num_replicas = 1` and
`max_faulty = 0`, and so satisfies `n >= 3f + 1`. -/
theorem Pbft_node_info_single_replica (Max_requests_in_batch : Nat) (id : NodeId)
    (sig_max_tx : Nat) (privk_pem : String) (cert : List Byte) :
    (Pbft_node_info Max_requests_in_batch id sig_max_tx privk_pem cert).general_info.num_replicas
        = 1
      ∧ (Pbft_node_info Max_requests_in_batch id sig_max_tx privk_pem cert).general_info.max_faulty
        = 0
      ∧ (Pbft_node_info Max_requests_in_batch id sig_max_tx privk_pem cert).general_info.num_replicas
        ≥ 3 * (Pbft_node_info Max_requests_in_batch id sig_max_tx privk_pem
                cert).general_info.max_faulty + 1 :=
  ⟨rfl, rfl, Nat.le_refl 1⟩

/-- C10: for every Prepare message, `is_proof()` returns true iff the `extra`
field of the message header is non-zero. -/
theorem is_proof_iff (p : Prepare) : p.is_proof = true ↔ p.rep.extra ≠ 0 := by
  unfold Prepare.is_proof
  simp

/-! ## Prepare: properties -/

/-- The result of `match` on two Prepares of one view and sequence number. -/
theorem match_eq (p q : Prepare) (hv : p.view = q.view) (hs : p.seqno = q.seqno) :
    p.match_ q = some (p.digest == q.digest) := by
  unfold Prepare.match_
  rw [if_pos ⟨hv, hs⟩]

theorem match_true_iff (p q : Prepare) (hv : p.view = q.view) (hs : p.seqno = q.seqno) :
    p.match_ q = some true ↔ p.digest = q.digest := by
  rw [match_eq p q hv hs]
  simp

/-- C11: for all Prepare messages `p` and `q` with equal view and equal
sequence number, `p.match(q)` returns true iff their digests are equal; the
result is the same whatever the replica ids of `p` and `q` are; and on the
Prepares of one view and sequence number `match` is reflexive, symmetric and
transitive. -/
theorem match_digest_equivalence (p q : Prepare) (hv : p.view = q.view)
    (hs : p.seqno = q.seqno) :
    (p.match_ q = some true ↔ p.digest = q.digest)
      ∧ (p.match_ q = some false ↔ p.digest ≠ q.digest)
      ∧ (∀ i j : Int,
          Prepare.match_ { rep := { p.rep with id := i } } { rep := { q.rep with id := j } }
            = p.match_ q)
      ∧ p.match_ p = some true
      ∧ (p.match_ q = some true → q.match_ p = some true)
      ∧ (∀ r : Prepare, r.view = q.view → r.seqno = q.seqno →
          p.match_ q = some true → q.match_ r = some true → p.match_ r = some true) := by
  refine ⟨match_true_iff p q hv hs, ?_, ?_, ?_, ?_, ?_⟩
  · rw [match_eq p q hv hs]
    simp
  · intro i j
    rfl
  · rw [match_true_iff p p rfl rfl]
  · intro h
    rw [match_true_iff q p hv.symm hs.symm]
    exact ((match_true_iff p q hv hs).mp h).symm
  · intro r hrv hrs hpq hqr
    rw [match_true_iff p r (hv.trans hrv.symm) (hs.trans hrs.symm)]
    exact ((match_true_iff p q hv hs).mp hpq).trans
      ((match_true_iff q r hrv.symm hrs.symm).mp hqr)

/-- C11 at a concrete input: two Prepares of view 1 and sequence number 5
with the same digest, from replicas 0 and 2. -/
theorem match_digest_equivalence_witness :
    (sample_prepare 1 5 9 0).view = (sample_prepare 1 5 9 2).view
    ∧ (sample_prepare 1 5 9 0).seqno = (sample_prepare 1 5 9 2).seqno
    ∧ ((sample_prepare 1 5 9 0).match_ (sample_prepare 1 5 9 2) = some true
        ↔ (sample_prepare 1 5 9 0).digest = (sample_prepare 1 5 9 2).digest)
    ∧ (sample_prepare 1 5 9 0).match_ (sample_prepare 1 5 9 2) = some true :=
  ⟨rfl, rfl, (match_digest_equivalence (sample_prepare 1 5 9 0) (sample_prepare 1 5 9 2)
      rfl rfl).1,
    (match_digest_equivalence (sample_prepare 1 5 9 0) (sample_prepare 1 5 9 2)
      rfl rfl).1.mpr rfl⟩

/-- C12: `Prepare::convert(m1, m2)` returns true iff `m1` has the Prepare tag
and the right size; when it returns true, `m2` is `m1` read as a Prepare; for
every other generic message it returns false and leaves `m2` as it was. -/
theorem convert_iff (Prepare_tag : Nat) (right_size : Nat → Bool) (cast : Message → Prepare)
    (m1 : Message) (m2 : Option Prepare) :
    ((Prepare.convert Prepare_tag right_size cast m1 m2).1 = true
        ↔ (m1.tag = Prepare_tag ∧ right_size m1.size = true))
      ∧ ((Prepare.convert Prepare_tag right_size cast m1 m2).1 = true →
          (Prepare.convert Prepare_tag right_size cast m1 m2).2 = some (cast m1))
      ∧ (¬ (m1.tag = Prepare_tag ∧ right_size m1.size = true) →
          Prepare.convert Prepare_tag right_size cast m1 m2 = (false, m2)) := by
  unfold Prepare.convert
  by_cases h : m1.tag = Prepare_tag ∧ right_size m1.size = true
  · rw [if_pos h]
    exact ⟨⟨fun _ => h, fun _ => rfl⟩, fun _ => rfl, fun hn => absurd h hn⟩
  · rw [if_neg h]
    refine ⟨⟨fun hf => ?_, fun hh => absurd hh h⟩, fun hf => ?_, fun _ => rfl⟩
    · exact absurd hf (by simp)
    · exact absurd hf (by simp)

/-- C12 at concrete inputs: with Prepare tag 4 and right size "at least 3
bytes", a three-byte message with tag 4 converts, and a message with tag 5
does not. -/
theorem convert_iff_witness :
    (Prepare.convert 4 (fun n => decide (3 ≤ n)) (fun _ => sample_prepare 1 5 9 0)
        (Message.mk 4 [1, 2, 3]) none).1 = true
    ∧ (Prepare.convert 4 (fun n => decide (3 ≤ n)) (fun _ => sample_prepare 1 5 9 0)
        (Message.mk 4 [1, 2, 3]) none).2 = some (sample_prepare 1 5 9 0)
    ∧ Prepare.convert 4 (fun n => decide (3 ≤ n)) (fun _ => sample_prepare 1 5 9 0)
        (Message.mk 5 [1, 2, 3]) none = (false, none) :=
  ⟨(convert_iff 4 (fun n => decide (3 ≤ n)) (fun _ => sample_prepare 1 5 9 0)
      (Message.mk 4 [1, 2, 3]) none).1.mpr (by decide),
    (convert_iff 4 (fun n => decide (3 ≤ n)) (fun _ => sample_prepare 1 5 9 0)
      (Message.mk 4 [1, 2, 3]) none).2.1 (by decide),
    (convert_iff 4 (fun n => decide (3 ≤ n)) (fun _ => sample_prepare 1 5 9 0)
      (Message.mk 5 [1, 2, 3]) none).2.2 (by decide)⟩

/-! ## Global commit and view lookup: lemmas -/

/-- What the loop of `get_view(SeqNo)` returns: it returns `v` exactly when
the list it runs over splits into entries above `seqno`, then an entry with
`min_global_commit <= seqno` and view `v - 2`. -/
theorem get_view_loop_eq_some (seqno : SeqNo) (v : View) (l : List ViewChangeInfo) :
    get_view_loop seqno l = some v ↔
      ∃ a info b, l = a ++ info :: b ∧ (∀ x ∈ a, ¬ x.min_global_commit ≤ seqno)
        ∧ info.min_global_commit ≤ seqno ∧ v = info.view + 2 := by
  induction l with
  | nil =>
    simp [get_view_loop]
  | cons x rest ih =>
    unfold get_view_loop
    by_cases hx : x.min_global_commit ≤ seqno
    · rw [if_pos hx]
      constructor
      · intro h
        refine ⟨[], x, rest, rfl, by simp, hx, ?_⟩
        exact (Option.some.inj h).symm
      · rintro ⟨a, info, b, hl, ha, _, hv⟩
        cases a with
        | nil =>
          simp only [List.nil_append, List.cons.injEq] at hl
          rw [hv, hl.1]
        | cons y a1 =>
          simp only [List.cons_append, List.cons.injEq] at hl
          exact absurd (hl.1 ▸ hx) (ha y (List.mem_cons_self y a1))
    · rw [if_neg hx, ih]
      constructor
      · rintro ⟨a, info, b, hl, ha, hi, hv⟩
        refine ⟨x :: a, info, b, by rw [hl]; rfl, ?_, hi, hv⟩
        intro y hy
        rcases List.mem_cons.mp hy with h1 | h1
        · rw [h1]; exact hx
        · exact ha y h1
      · rintro ⟨a, info, b, hl, ha, hi, hv⟩
        cases a with
        | nil =>
          simp only [List.nil_append, List.cons.injEq] at hl
          exact absurd (hl.1 ▸ hi) hx
        | cons y a1 =>
          simp only [List.cons_append, List.cons.injEq] at hl
          exact ⟨a1, info, b, hl.2, fun z hz => ha z (List.mem_cons_of_mem y hz), hi, hv⟩

theorem global_commit_cb_last_commit_view {σ : Type} (NoVersion : SeqNo)
    (compact : σ → SeqNo → σ) (s : Pbft σ) (version : SeqNo) (view : View) :
    (global_commit_cb NoVersion compact s version view).last_commit_view
      = s.last_commit_view := by
  unfold global_commit_cb
  by_cases h : version = NoVersion ∨ version < s.global_commit_seqno
  · rw [if_pos h]
  · rw [if_neg h]
    simp only []
    by_cases h2 : s.last_commit_view < view
    · rw [if_pos h2]
    · rw [if_neg h2]

/-- The callback never assigns `last_commit_view`: in every state reached
through global-commit callbacks it has the value it had at the start. -/
theorem after_global_commits_last_commit_view {σ : Type} (NoVersion : SeqNo)
    (compact : σ → SeqNo → σ) (cbs : List (SeqNo × View)) :
    ∀ s : Pbft σ,
      (after_global_commits NoVersion compact s cbs).last_commit_view = s.last_commit_view := by
  induction cbs with
  | nil => intro s; rfl
  | cons c cbs ih =>
    intro s
    unfold after_global_commits at ih ⊢
    rw [List.foldl_cons, ih, global_commit_cb_last_commit_view]

/-- A callback that passes the guard and carries a view above
`last_commit_view` appends the entry `(view, version)`. -/
theorem global_commit_cb_appends {σ : Type} (NoVersion : SeqNo) (compact : σ → SeqNo → σ)
    (s : Pbft σ) (version : SeqNo) (view : View)
    (h1 : version ≠ NoVersion) (h2 : s.global_commit_seqno ≤ version)
    (h3 : s.last_commit_view < view) :
    (global_commit_cb NoVersion compact s version view).view_change_list
      = s.view_change_list ++ [{ view := view, min_global_commit := version }] := by
  unfold global_commit_cb
  have h : ¬ (version = NoVersion ∨ version < s.global_commit_seqno) := by
    rintro (h | h)
    · exact h1 h
    · exact absurd h2 (not_le.mpr h)
  rw [if_neg h]
  simp only []
  rw [if_pos h3]

/-! ## Global commit and view lookup: properties -/

/-- C19: `get_view(seqno)` returns 2 plus the view of the last entry of
`view_change_list` whose `min_global_commit` is at most `seqno` (every later
entry is above `seqno`); in the state after construction it returns 2 for
every `seqno >= 0`; and in every state reachable from construction through
global-commit callbacks, right after one more callback `(version, view)`
that passes the guard (`version` is not `NoVersion` and not below the commit
sequence number) with `view > 0`, `get_view(version)` returns `view + 2`. -/
theorem get_view_seqno_spec {σ : Type} (NoVersion : SeqNo) (compact : σ → SeqNo → σ) :
    (∀ (s : Pbft σ) (seqno : SeqNo) (v : View),
        s.get_view_seqno seqno = some v ↔
          ∃ l1 info l2, s.view_change_list = l1 ++ info :: l2
            ∧ info.min_global_commit ≤ seqno
            ∧ (∀ x ∈ l2, ¬ x.min_global_commit ≤ seqno)
            ∧ v = info.view + 2)
      ∧ (∀ (id : NodeId) (w : σ) (seqno : SeqNo), 0 ≤ seqno →
          (Pbft.init id w).get_view_seqno seqno = some 2)
      ∧ (∀ (id : NodeId) (w : σ) (cbs : List (SeqNo × View)) (version : SeqNo) (view : View),
          version ≠ NoVersion →
          (after_global_commits NoVersion compact (Pbft.init id w) cbs).global_commit_seqno
            ≤ version →
          0 < view →
          (global_commit_cb NoVersion compact
              (after_global_commits NoVersion compact (Pbft.init id w) cbs)
              version view).get_view_seqno version = some (view + 2)) := by
  refine ⟨?_, ?_, ?_⟩
  · intro s seqno v
    unfold Pbft.get_view_seqno
    rw [get_view_loop_eq_some]
    constructor
    · rintro ⟨a, info, b, hl, ha, hi, hv⟩
      refine ⟨b.reverse, info, a.reverse, ?_, hi, ?_, hv⟩
      · have := congrArg List.reverse hl
        simpa using this
      · intro x hx
        exact ha x (List.mem_reverse.mp hx)
    · rintro ⟨l1, info, l2, hl, hi, h2, hv⟩
      refine ⟨l2.reverse, info, l1.reverse, ?_, ?_, hi, hv⟩
      · rw [hl]; simp
      · intro x hx
        exact h2 x (List.mem_reverse.mp hx)
  · intro id w seqno hs
    unfold Pbft.get_view_seqno Pbft.init
    simp only [List.replicate, List.reverse_cons, List.reverse_nil, List.nil_append,
      get_view_loop]
    rw [if_pos hs]
    rfl
  · intro id w cbs version view h1 h2 h3
    have hl := after_global_commits_last_commit_view NoVersion compact cbs (Pbft.init id w)
    have h4 : (after_global_commits NoVersion compact (Pbft.init id w) cbs).last_commit_view
        < view := by
      rw [hl]
      exact h3
    unfold Pbft.get_view_seqno
    rw [global_commit_cb_appends NoVersion compact _ version view h1 h2 h4]
    simp only [List.reverse_append, List.reverse_cons, List.reverse_nil, List.nil_append,
      List.singleton_append, get_view_loop]
    rw [if_pos (le_refl version)]

/-- C19 at a concrete input: after construction and the callbacks `(5, 1)`
and `(9, 1)`, the callback `(12, 3)` passes the guard, and `get_view(12)` is
then 5; `NoVersion` is taken as -1 and `compact` leaves the state as it is. -/
theorem get_view_seqno_spec_witness :
    (12 : SeqNo) ≠ -1
    ∧ (after_global_commits (-1) (fun (w : Index) _ => w) (Pbft.init 1 0)
          [(5, 1), (9, 1)]).global_commit_seqno ≤ 12
    ∧ (0 : View) < 3
    ∧ (global_commit_cb (-1) (fun (w : Index) _ => w)
          (after_global_commits (-1) (fun (w : Index) _ => w) (Pbft.init 1 0) [(5, 1), (9, 1)])
          12 3).get_view_seqno 12 = some (3 + 2) :=
  ⟨by decide, by decide, by decide,
    (get_view_seqno_spec (-1) (fun (w : Index) _ => w)).2.2 1 0 [(5, 1), (9, 1)] 12 3
      (by decide) (by decide) (by decide)⟩

/-- C20: `get_commit_seqno()` never decreases: it is 1 after construction;
for every state and every global-commit callback `(version, view)` the value
after the callback is at least the value before; and it equals `version`
whenever `version` is not `NoVersion` and is at least the value before. -/
theorem get_commit_seqno_monotone {σ : Type} (NoVersion : SeqNo) (compact : σ → SeqNo → σ) :
    (∀ (id : NodeId) (w : σ), (Pbft.init id w).get_commit_seqno = 1)
      ∧ (∀ (s : Pbft σ) (version : SeqNo) (view : View),
          s.get_commit_seqno
            ≤ (global_commit_cb NoVersion compact s version view).get_commit_seqno)
      ∧ (∀ (s : Pbft σ) (version : SeqNo) (view : View),
          version ≠ NoVersion → s.get_commit_seqno ≤ version →
          (global_commit_cb NoVersion compact s version view).get_commit_seqno = version) := by
  refine ⟨fun _ _ => rfl, ?_, ?_⟩
  · intro s version view
    unfold Pbft.get_commit_seqno global_commit_cb
    by_cases h : version = NoVersion ∨ version < s.global_commit_seqno
    · rw [if_pos h]
    · rw [if_neg h]
      have h2 : s.global_commit_seqno ≤ version := not_lt.mp (fun hlt => h (Or.inr hlt))
      simp only []
      by_cases h3 : s.last_commit_view < view
      · rw [if_pos h3]; exact h2
      · rw [if_neg h3]; exact h2
  · intro s version view h1 h2
    unfold Pbft.get_commit_seqno at h2 ⊢
    unfold global_commit_cb
    have h : ¬ (version = NoVersion ∨ version < s.global_commit_seqno) := by
      rintro (h | h)
      · exact h1 h
      · exact absurd h2 (not_le.mpr h)
    rw [if_neg h]
    simp only []
    by_cases h3 : s.last_commit_view < view
    · rw [if_pos h3]
    · rw [if_neg h3]

/-- C20 at a concrete input: after construction the callback `(7, 0)` moves
the commit sequence number from 1 to 7; `NoVersion` is taken as -1. -/
theorem get_commit_seqno_monotone_witness :
    (7 : SeqNo) ≠ -1
    ∧ (Pbft.init 1 (0 : Index)).get_commit_seqno ≤ 7
    ∧ (global_commit_cb (-1) (fun (w : Index) _ => w) (Pbft.init 1 0) 7 0).get_commit_seqno
        = 7 :=
  ⟨by decide, by decide,
    (get_commit_seqno_monotone (-1) (fun (w : Index) _ => w)).2.2 (Pbft.init 1 0) 7 0
      (by decide) (by decide)⟩

/-! ## Reachable states of the view list: lemmas -/

/-- The three ways a global-commit callback can end: the guard rejects it and
nothing changes; it is accepted without a new entry; it is accepted and
appends the entry `(view, version)`. -/
theorem global_commit_cb_cases {σ : Type} (NoVersion : SeqNo) (compact : σ → SeqNo → σ)
    (s : Pbft σ) (version : SeqNo) (view : View) :
    ((global_commit_cb NoVersion compact s version view).global_commit_seqno
          = s.global_commit_seqno
        ∧ (global_commit_cb NoVersion compact s version view).view_change_list
          = s.view_change_list)
      ∨ (s.global_commit_seqno ≤ version
        ∧ (global_commit_cb NoVersion compact s version view).global_commit_seqno = version
        ∧ (global_commit_cb NoVersion compact s version view).view_change_list
          = s.view_change_list)
      ∨ (s.global_commit_seqno ≤ version
        ∧ (global_commit_cb NoVersion compact s version view).global_commit_seqno = version
        ∧ s.last_commit_view < view
        ∧ (global_commit_cb NoVersion compact s version view).view_change_list
          = s.view_change_list ++ [{ view := view, min_global_commit := version }]) := by
  unfold global_commit_cb
  by_cases h : version = NoVersion ∨ version < s.global_commit_seqno
  · rw [if_pos h]
    exact Or.inl ⟨rfl, rfl⟩
  · rw [if_neg h]
    have h2 : s.global_commit_seqno ≤ version := not_lt.mp (fun hlt => h (Or.inr hlt))
    simp only []
    by_cases h3 : s.last_commit_view < view
    · rw [if_pos h3]
      exact Or.inr (Or.inr ⟨h2, rfl, h3, rfl⟩)
    · rw [if_neg h3]
      exact Or.inr (Or.inl ⟨h2, rfl, rfl⟩)

theorem after_global_commits_cons {σ : Type} (NoVersion : SeqNo) (compact : σ → SeqNo → σ)
    (s : Pbft σ) (c : SeqNo × View) (cbs : List (SeqNo × View)) :
    after_global_commits NoVersion compact s (c :: cbs)
      = after_global_commits NoVersion compact
          (global_commit_cb NoVersion compact s c.1 c.2) cbs := rfl

/-- Global-commit callbacks keep the entries of the list within the commit
sequence number and in non-decreasing order of `min_global_commit`, and only
append to the list. -/
theorem after_global_commits_min_global_commit {σ : Type} (NoVersion : SeqNo)
    (compact : σ → SeqNo → σ) (cbs : List (SeqNo × View)) :
    ∀ s : Pbft σ,
      (∀ e ∈ s.view_change_list, e.min_global_commit ≤ s.global_commit_seqno) →
      s.view_change_list.Pairwise (fun a b => a.min_global_commit ≤ b.min_global_commit) →
      (∀ e ∈ (after_global_commits NoVersion compact s cbs).view_change_list,
          e.min_global_commit
            ≤ (after_global_commits NoVersion compact s cbs).global_commit_seqno)
        ∧ (after_global_commits NoVersion compact s cbs).view_change_list.Pairwise
            (fun a b => a.min_global_commit ≤ b.min_global_commit)
        ∧ ∃ t, (after_global_commits NoVersion compact s cbs).view_change_list
            = s.view_change_list ++ t := by
  induction cbs with
  | nil =>
    intro s h1 h2
    exact ⟨h1, h2, [], by simp [after_global_commits]⟩
  | cons c cbs ih =>
    intro s h1 h2
    rw [after_global_commits_cons]
    rcases global_commit_cb_cases NoVersion compact s c.1 c.2 with
      ⟨hg, hl⟩ | ⟨hle, hg, hl⟩ | ⟨hle, hg, _, hl⟩
    · obtain ⟨a1, a2, t, a3⟩ := ih (global_commit_cb NoVersion compact s c.1 c.2)
        (by rw [hl, hg]; exact h1) (by rw [hl]; exact h2)
      exact ⟨a1, a2, t, by rw [a3, hl]⟩
    · obtain ⟨a1, a2, t, a3⟩ := ih (global_commit_cb NoVersion compact s c.1 c.2)
        (by rw [hl, hg]; exact fun e he => le_trans (h1 e he) hle) (by rw [hl]; exact h2)
      exact ⟨a1, a2, t, by rw [a3, hl]⟩
    · obtain ⟨a1, a2, t, a3⟩ := ih (global_commit_cb NoVersion compact s c.1 c.2)
        (by
          rw [hl, hg]
          intro e he
          rcases List.mem_append.mp he with h | h
          · exact le_trans (h1 e h) hle
          · rw [List.mem_singleton.mp h])
        (by
          rw [hl, List.pairwise_append]
          refine ⟨h2, List.pairwise_singleton _ _, ?_⟩
          intro a ha b hb
          rw [List.mem_singleton.mp hb]
          exact le_trans (h1 a ha) hle)
      exact ⟨a1, a2, { view := c.2, min_global_commit := c.1 } :: t, by rw [a3, hl]; simp⟩

/-- When the views of the callbacks are non-decreasing, every entry the
callbacks append carries a view at least as large as the entries before it. -/
theorem after_global_commits_views {σ : Type} (NoVersion : SeqNo)
    (compact : σ → SeqNo → σ) (cbs : List (SeqNo × View)) :
    ∀ (s : Pbft σ) (m : View),
      s.last_commit_view = 0 →
      (∀ e ∈ s.view_change_list, e.view ≤ m) →
      s.view_change_list.Pairwise (fun a b => a.view ≤ b.view) →
      (cbs.map Prod.snd).Pairwise (· ≤ ·) →
      (∀ c ∈ cbs, 0 < c.2 → m ≤ c.2) →
      (after_global_commits NoVersion compact s cbs).view_change_list.Pairwise
        (fun a b => a.view ≤ b.view) := by
  induction cbs with
  | nil =>
    intro s m _ _ h2 _ _
    exact h2
  | cons c cbs ih =>
    intro s m h0 h1 h2 h3 h4
    rw [after_global_commits_cons]
    rw [List.map_cons, List.pairwise_cons] at h3
    have hlc := global_commit_cb_last_commit_view NoVersion compact s c.1 c.2
    rcases global_commit_cb_cases NoVersion compact s c.1 c.2 with
      ⟨_, hl⟩ | ⟨_, _, hl⟩ | ⟨_, _, hlt, hl⟩
    · exact ih _ m (by rw [hlc]; exact h0) (by rw [hl]; exact h1) (by rw [hl]; exact h2) h3.2
        (fun c1 hc1 => h4 c1 (List.mem_cons_of_mem c hc1))
    · exact ih _ m (by rw [hlc]; exact h0) (by rw [hl]; exact h1) (by rw [hl]; exact h2) h3.2
        (fun c1 hc1 => h4 c1 (List.mem_cons_of_mem c hc1))
    · have hpos : 0 < c.2 := by rw [h0] at hlt; exact hlt
      have hm : m ≤ c.2 := h4 c (List.mem_cons_self c cbs) hpos
      refine ih _ c.2 (by rw [hlc]; exact h0) ?_ ?_ h3.2 ?_
      · rw [hl]
        intro e he
        rcases List.mem_append.mp he with h | h
        · exact le_trans (h1 e h) hm
        · rw [List.mem_singleton.mp h]
      · rw [hl, List.pairwise_append]
        refine ⟨h2, List.pairwise_singleton _ _, ?_⟩
        intro a ha b hb
        rw [List.mem_singleton.mp hb]
        exact le_trans (h1 a ha) hm
      · intro c1 hc1 _
        exact h3.1 c1.2 (List.mem_map_of_mem Prod.snd hc1)

/-- The loop of `get_view(SeqNo)` finds an entry as soon as the list has one
with `min_global_commit <= seqno`. -/
theorem get_view_loop_isSome (seqno : SeqNo) (l : List ViewChangeInfo)
    (h : ∃ e ∈ l, e.min_global_commit ≤ seqno) : ∃ v, get_view_loop seqno l = some v := by
  induction l with
  | nil =>
    obtain ⟨e, he, _⟩ := h
    exact absurd he (List.not_mem_nil e)
  | cons x rest ih =>
    unfold get_view_loop
    by_cases hx : x.min_global_commit ≤ seqno
    · rw [if_pos hx]
      exact ⟨_, rfl⟩
    · rw [if_neg hx]
      obtain ⟨e, he, hes⟩ := h
      rcases List.mem_cons.mp he with h1 | h1
      · rw [h1] at hes
        exact absurd hes hx
      · exact ih ⟨e, h1, hes⟩

/-- A value returned by the loop of `get_view(SeqNo)` is 2 plus the view of
an entry of the list. -/
theorem get_view_loop_mem (seqno : SeqNo) (v : View) (l : List ViewChangeInfo)
    (h : get_view_loop seqno l = some v) : ∃ e ∈ l, v = e.view + 2 := by
  induction l with
  | nil => simp [get_view_loop] at h
  | cons x rest ih =>
    unfold get_view_loop at h
    by_cases hx : x.min_global_commit ≤ seqno
    · rw [if_pos hx] at h
      exact ⟨x, List.mem_cons_self x rest, (Option.some.inj h).symm⟩
    · rw [if_neg hx] at h
      obtain ⟨e, he, hv⟩ := ih h
      exact ⟨e, List.mem_cons_of_mem x he, hv⟩

/-- Over a list whose views do not increase from front to back (the reversed
view list), the loop of `get_view(SeqNo)` is monotone in `seqno`. -/
theorem get_view_loop_mono (s1 s2 : SeqNo) (h12 : s1 ≤ s2) (l : List ViewChangeInfo) :
    l.Pairwise (fun a b => b.view ≤ a.view) →
    ∀ v1 v2 : View, get_view_loop s1 l = some v1 → get_view_loop s2 l = some v2 → v1 ≤ v2 := by
  induction l with
  | nil =>
    intro _ v1 v2 h1 _
    simp [get_view_loop] at h1
  | cons x rest ih =>
    intro hp v1 v2 h1 h2
    rw [List.pairwise_cons] at hp
    unfold get_view_loop at h1 h2
    by_cases hx2 : x.min_global_commit ≤ s2
    · rw [if_pos hx2] at h2
      have e2 : v2 = x.view + 2 := (Option.some.inj h2).symm
      by_cases hx1 : x.min_global_commit ≤ s1
      · rw [if_pos hx1] at h1
        have e1 : v1 = x.view + 2 := (Option.some.inj h1).symm
        rw [e1, e2]
      · rw [if_neg hx1] at h1
        obtain ⟨e, he, hv⟩ := get_view_loop_mem s1 v1 rest h1
        have := hp.1 e he
        rw [hv, e2]
        unfold View at *
        omega
    · rw [if_neg hx2] at h2
      have hx1 : ¬ x.min_global_commit ≤ s1 := fun h => hx2 (le_trans h h12)
      rw [if_neg hx1] at h1
      exact ih hp.2 v1 v2 h1 h2

/-- In every state reachable from construction the view list is the initial
entry `(view 0, min_global_commit 0)` followed by appended entries, in
non-decreasing order of `min_global_commit`. -/
theorem reachable_view_change_list {σ : Type} (NoVersion : SeqNo) (compact : σ → SeqNo → σ)
    (id : NodeId) (w : σ) (cbs : List (SeqNo × View)) :
    (∃ t, (after_global_commits NoVersion compact (Pbft.init id w) cbs).view_change_list
        = { view := 0, min_global_commit := 0 } :: t)
      ∧ (after_global_commits NoVersion compact (Pbft.init id w) cbs).view_change_list.Pairwise
          (fun a b => a.min_global_commit ≤ b.min_global_commit) := by
  have hinit : (Pbft.init id w).view_change_list
      = [{ view := 0, min_global_commit := 0 }] := rfl
  obtain ⟨_, a2, t, a3⟩ := after_global_commits_min_global_commit NoVersion compact cbs
    (Pbft.init id w)
    (by
      rw [hinit]
      intro e he
      rw [List.mem_singleton.mp he]
      show (0 : Int) ≤ 1
      decide)
    (by rw [hinit]; exact List.pairwise_singleton _ _)
  exact ⟨⟨t, by rw [a3, hinit]; rfl⟩, a2⟩

/-! ## Reachable states of the view list: properties -/

/-- C21: in every state reachable from construction through any sequence of
global-commit callbacks, `get_view(seqno)` returns a value for every
`seqno >= 0`: the loop always meets an entry with
`min_global_commit <= seqno` and never reaches the `throw`. -/
theorem get_view_seqno_returns {σ : Type} (NoVersion : SeqNo) (compact : σ → SeqNo → σ)
    (id : NodeId) (w : σ) (cbs : List (SeqNo × View)) (seqno : SeqNo) (h : 0 ≤ seqno) :
    ∃ v, (after_global_commits NoVersion compact (Pbft.init id w) cbs).get_view_seqno seqno
      = some v := by
  obtain ⟨⟨t, ht⟩, _⟩ := reachable_view_change_list NoVersion compact id w cbs
  unfold Pbft.get_view_seqno
  apply get_view_loop_isSome
  refine ⟨{ view := 0, min_global_commit := 0 }, ?_, h⟩
  rw [ht, List.mem_reverse]
  exact List.mem_cons_self _ _

/-- C21 at a concrete input: after the callbacks `(5, 1)` and `(9, 1)`,
`get_view(3)` returns a value; `NoVersion` is taken as -1. -/
theorem get_view_seqno_returns_witness :
    (0 : SeqNo) ≤ 3
    ∧ ∃ v, (after_global_commits (-1) (fun (w : Index) _ => w) (Pbft.init 1 0)
          [(5, 1), (9, 1)]).get_view_seqno 3 = some v :=
  ⟨by decide, get_view_seqno_returns (-1) (fun (w : Index) _ => w) 1 0 [(5, 1), (9, 1)] 3
    (by decide)⟩

/-- C22: when the views passed to the successive global-commit callbacks are
non-decreasing, then in every state reachable from construction
`get_view(s1)` and `get_view(s2)` both return, and
`get_view(s1) <= get_view(s2)`, for all `0 <= s1 <= s2`. -/
theorem get_view_seqno_monotone {σ : Type} (NoVersion : SeqNo) (compact : σ → SeqNo → σ)
    (id : NodeId) (w : σ) (cbs : List (SeqNo × View)) (s1 s2 : SeqNo)
    (hviews : (cbs.map Prod.snd).Pairwise (· ≤ ·)) (h1 : 0 ≤ s1) (h12 : s1 ≤ s2) :
    ∃ v1 v2,
      (after_global_commits NoVersion compact (Pbft.init id w) cbs).get_view_seqno s1 = some v1
        ∧ (after_global_commits NoVersion compact (Pbft.init id w) cbs).get_view_seqno s2
            = some v2
        ∧ v1 ≤ v2 := by
  have hinit : (Pbft.init id w).view_change_list
      = [{ view := 0, min_global_commit := 0 }] := rfl
  have hsorted := after_global_commits_views NoVersion compact cbs (Pbft.init id w) 0 rfl
    (by
      rw [hinit]
      intro e he
      rw [List.mem_singleton.mp he])
    (by rw [hinit]; exact List.pairwise_singleton _ _)
    hviews
    (fun c _ hc => le_of_lt hc)
  obtain ⟨⟨t, ht⟩, _⟩ := reachable_view_change_list NoVersion compact id w cbs
  have hsome : ∀ q : SeqNo, 0 ≤ q →
      ∃ v, get_view_loop q
        (after_global_commits NoVersion compact (Pbft.init id w) cbs).view_change_list.reverse
          = some v := by
    intro q hq
    apply get_view_loop_isSome
    refine ⟨{ view := 0, min_global_commit := 0 }, ?_, hq⟩
    rw [ht, List.mem_reverse]
    exact List.mem_cons_self _ _
  obtain ⟨v1, e1⟩ := hsome s1 h1
  obtain ⟨v2, e2⟩ := hsome s2 (le_trans h1 h12)
  refine ⟨v1, v2, e1, e2, ?_⟩
  exact get_view_loop_mono s1 s2 h12 _ (List.pairwise_reverse.mpr hsorted) v1 v2 e1 e2

/-- C22 at a concrete input: after the callbacks `(5, 1)`, `(9, 1)` and
`(12, 3)`, whose views 1, 1, 3 are non-decreasing, `get_view(6) <=
get_view(20)`; `NoVersion` is taken as -1. -/
theorem get_view_seqno_monotone_witness :
    (([(5, 1), (9, 1), (12, 3)] : List (SeqNo × View)).map Prod.snd).Pairwise (· ≤ ·)
    ∧ (0 : SeqNo) ≤ 6 ∧ (6 : SeqNo) ≤ 20
    ∧ ∃ v1 v2,
        (after_global_commits (-1) (fun (w : Index) _ => w) (Pbft.init 1 0)
            [(5, 1), (9, 1), (12, 3)]).get_view_seqno 6 = some v1
          ∧ (after_global_commits (-1) (fun (w : Index) _ => w) (Pbft.init 1 0)
              [(5, 1), (9, 1), (12, 3)]).get_view_seqno 20 = some v2
          ∧ v1 ≤ v2 :=
  ⟨by decide, by decide, by decide,
    get_view_seqno_monotone (-1) (fun (w : Index) _ => w) 1 0 [(5, 1), (9, 1), (12, 3)] 6 20
      (by decide) (by decide) (by decide)⟩

/-- C23: the code after construction and the callbacks `(5, 1)` and `(9, 1)`,
whose views are non-decreasing (`NoVersion` taken as -1): both callbacks
pass the guard, `last_commit_view` is still 0 after each, and both append an
entry, so the list holds view 1 twice and its views 0, 1, 1 are not strictly
increasing. -/
theorem view_change_list_records_view_twice :
    (after_global_commits (-1) (fun (w : Index) _ => w) (Pbft.init 1 0)
        [(5, 1), (9, 1)]).view_change_list
      = [{ view := 0, min_global_commit := 0 }, { view := 1, min_global_commit := 5 },
         { view := 1, min_global_commit := 9 }]
    ∧ (after_global_commits (-1) (fun (w : Index) _ => w) (Pbft.init 1 0)
        [(5, 1), (9, 1)]).last_commit_view = 0
    ∧ ¬ ((after_global_commits (-1) (fun (w : Index) _ => w) (Pbft.init 1 0)
        [(5, 1), (9, 1)]).view_change_list.map fun e => e.view).Pairwise (· < ·) := by
  decide

/-- C24: in every state reachable from construction through global-commit
callbacks, `view_change_list` is non-empty, its first entry is
`(view 0, min_global_commit 0)`, and the `min_global_commit` values of its
entries are non-decreasing from front to back. -/
theorem view_change_list_invariant {σ : Type} (NoVersion : SeqNo) (compact : σ → SeqNo → σ)
    (id : NodeId) (w : σ) (cbs : List (SeqNo × View)) :
    (after_global_commits NoVersion compact (Pbft.init id w) cbs).view_change_list ≠ []
      ∧ (after_global_commits NoVersion compact (Pbft.init id w) cbs).view_change_list.head?
          = some { view := 0, min_global_commit := 0 }
      ∧ (after_global_commits NoVersion compact (Pbft.init id w) cbs).view_change_list.Pairwise
          (fun a b => a.min_global_commit ≤ b.min_global_commit) := by
  obtain ⟨⟨t, ht⟩, hp⟩ := reachable_view_change_list NoVersion compact id w cbs
  refine ⟨?_, ?_, hp⟩
  · rw [ht]
    exact List.cons_ne_nil _ _
  · rw [ht]
    rfl

/-! ## The ranges of one catch-up: lemmas -/

theorem index_range_append (a b c : Index) (hab : a ≤ b + 1) (hbc : b ≤ c) :
    index_range a b ++ index_range (b + 1) c = index_range a c := by
  unfold index_range
  have hsum : (c + 1 - a).toNat = (b + 1 - a).toNat + (c + 1 - (b + 1)).toNat := by
    unfold Index at *
    omega
  rw [hsum, List.range_add, List.map_append, List.map_map]
  congr 1
  apply List.map_congr_left
  intro n _
  simp only [Function.comp]
  have hm : (((b + 1 - a).toNat : Nat) : Int) = b + 1 - a := by
    unfold Index at *
    omega
  rw [Nat.cast_add, hm]
  unfold Index at *
  omega

/-- The explicit form of `all_ranges`: the loop entered at `end_idx`, then
the last call. -/
theorem all_ranges_unfold (latest start_idx : Index) :
    all_ranges latest start_idx
      = loop_ranges latest
          (latest - (if latest = 0 then 0 else min (start_idx + entries_batch_size) latest)).toNat
          (if latest = 0 then 0 else min (start_idx + entries_batch_size) latest) start_idx
        ++ [(loop_start latest
              (latest - (if latest = 0 then 0
                else min (start_idx + entries_batch_size) latest)).toNat
              (if latest = 0 then 0 else min (start_idx + entries_batch_size) latest) start_idx,
            latest)] := by
  unfold all_ranges
  have hc : latest = 0
      ∨ (if latest = 0 then (0 : Index) else min (start_idx + entries_batch_size) latest)
          ≤ latest := by
    by_cases h0 : latest = 0
    · exact Or.inl h0
    · right
      simp only [h0, if_false]
      exact min_le_right _ _
  simp only [hc, if_true]

/-- The ranges of the loop of `send_append_entries` followed by the last
call, when the loop is entered with `start_idx <= i`, `start_idx <= latest`
and enough fuel: every range is non-empty, each range starts one past the
end of the one before, and together they list `start_idx .. latest`, every
index once. -/
theorem loop_ranges_partition (latest : Index) (fuel : Nat) :
    ∀ i start_idx : Index, (latest - i).toNat ≤ fuel → start_idx ≤ i → start_idx ≤ latest →
      (∀ r ∈ loop_ranges latest fuel i start_idx ++ [(loop_start latest fuel i start_idx, latest)],
          r.1 ≤ r.2)
        ∧ (loop_ranges latest fuel i start_idx
              ++ [(loop_start latest fuel i start_idx, latest)]).Chain'
            (fun a b => b.1 = a.2 + 1)
        ∧ ((loop_ranges latest fuel i start_idx
              ++ [(loop_start latest fuel i start_idx, latest)]).map
            fun r => index_range r.1 r.2).flatten
          = index_range start_idx latest := by
  induction fuel with
  | zero =>
    intro i start_idx _ _ hsl
    simp only [loop_ranges, loop_start, List.nil_append, List.mem_singleton, List.map_cons,
      List.map_nil, List.flatten_cons, List.flatten_nil, List.append_nil, List.chain'_singleton,
      true_and]
    refine ⟨?_, trivial⟩
    intro r hr
    rw [hr]
    exact hsl
  | succ n ih =>
    intro i start_idx hf hsi hsl
    unfold loop_ranges loop_start
    by_cases h : i < latest
    · simp only [h, if_true, List.cons_append]
      have hmin : min (i + 1) latest = i + 1 := by
        apply min_eq_left
        unfold Index at *
        omega
      rw [hmin]
      have hf2 : (latest - (i + entries_batch_size)).toNat ≤ n := by
        unfold entries_batch_size Index at *
        omega
      have hs2 : i + 1 ≤ i + entries_batch_size := by
        unfold entries_batch_size Index at *
        omega
      have hl2 : i + 1 ≤ latest := by
        unfold Index at *
        omega
      obtain ⟨a1, a2, a3⟩ := ih (i + entries_batch_size) (i + 1) hf2 hs2 hl2
      obtain ⟨r0, rs0, hr0, hr1⟩ :=
        loop_ranges_head latest n (i + entries_batch_size) (i + 1)
      refine ⟨?_, ?_, ?_⟩
      · intro r hr
        rcases List.mem_cons.mp hr with h1 | h1
        · rw [h1]
          exact hsi
        · exact a1 r h1
      · rw [List.chain'_cons']
        refine ⟨?_, a2⟩
        intro y hy
        rw [hr0] at hy
        simp only [List.head?_cons, Option.mem_def, Option.some.injEq] at hy
        rw [← hy, hr1]
      · rw [List.map_cons, List.flatten_cons, a3]
        exact index_range_append start_idx i latest
          (by unfold Index at *; omega) (le_of_lt h)
    · simp only [h, if_false, List.nil_append, List.mem_singleton, List.map_cons,
        List.map_nil, List.flatten_cons, List.flatten_nil, List.append_nil,
        List.chain'_singleton, true_and]
      refine ⟨?_, trivial⟩
      intro r hr
      rw [hr]
      exact hsl

/-- The ranges of one call `send_append_entries(to, start_idx)` with
`start_idx <= latest`. -/
theorem all_ranges_partition (latest start_idx : Index) (h : start_idx ≤ latest) :
    (∀ r ∈ all_ranges latest start_idx, r.1 ≤ r.2)
      ∧ (all_ranges latest start_idx).Chain' (fun a b => b.1 = a.2 + 1)
      ∧ ((all_ranges latest start_idx).map fun r => index_range r.1 r.2).flatten
          = index_range start_idx latest := by
  rw [all_ranges_unfold]
  apply loop_ranges_partition
  · exact Nat.le_refl _
  · by_cases h0 : latest = 0
    · simp only [h0, if_true]
      rw [h0] at h
      exact h
    · simp only [h0, if_false]
      apply le_min
      · unfold entries_batch_size Index at *
        omega
      · exact h
  · exact h

/-- The last range of one call of `send_append_entries` ends at the latest
stable index. -/
theorem all_ranges_getLast (latest start_idx : Index) :
    ((all_ranges latest start_idx).getLast?).map Prod.snd = some latest := by
  rw [all_ranges_unfold, List.getLast?_append]
  rfl

/-! ## The ranges of one catch-up: properties -/

/-- C25: for every `start_idx <= latest_stable_ae_index` (in particular for
`1 <= start_idx`), the calls `send_append_entries(to, start_idx)` makes on
the channel are the headers of a list of ranges `rs`, in order, such that:
there is at least one range and every range is non-empty; the first range
starts at `start_idx`; each later range starts one past the end of the one
before; the last range ends at `latest_stable_ae_index`; and the indices of
the ranges, listed range after range, are exactly
`start_idx, ..., latest_stable_ae_index`, each once. -/
theorem send_append_entries_ranges_partition (d : Decls) (s : PbftEnclaveNetwork)
    (to_node : NodeId) (start_idx : Index) (h : start_idx ≤ s.latest_stable_ae_index) :
    ∃ rs : List (Index × Index),
      (send_append_entries d s to_node start_idx).n2n_sent
          = s.n2n_sent ++ rs.map (range_msg d s.id to_node)
        ∧ sent_ranges (rs.map (range_msg d s.id to_node)) = rs
        ∧ rs ≠ []
        ∧ (∀ r ∈ rs, r.1 ≤ r.2)
        ∧ (rs.head?).map Prod.fst = some start_idx
        ∧ rs.Chain' (fun a b => b.1 = a.2 + 1)
        ∧ (rs.getLast?).map Prod.snd = some s.latest_stable_ae_index
        ∧ (rs.map fun r => index_range r.1 r.2).flatten
            = index_range start_idx s.latest_stable_ae_index := by
  obtain ⟨a1, a2, a3⟩ := all_ranges_partition s.latest_stable_ae_index start_idx h
  obtain ⟨r0, rs0, hr0, hr1⟩ := all_ranges_head s.latest_stable_ae_index start_idx
  refine ⟨all_ranges s.latest_stable_ae_index start_idx, ?_, sent_ranges_range_msg _ _ _ _,
    ?_, a1, ?_, a2, all_ranges_getLast _ _, a3⟩
  · rw [send_append_entries_eq, send_ranges_sent]
  · rw [hr0]
    exact List.cons_ne_nil _ _
  · rw [hr0]
    simp only [List.head?_cons, Option.map_some']
    rw [hr1]

/-- C25 at a concrete input: node 0 with latest stable index 25 sends to
node 1 from index 3. -/
theorem send_append_entries_ranges_partition_witness :
    (3 : Index) ≤ (sample_network 0 25).latest_stable_ae_index
    ∧ ∃ rs : List (Index × Index),
        (send_append_entries sample_decls (sample_network 0 25) 1 3).n2n_sent
            = (sample_network 0 25).n2n_sent
              ++ rs.map (range_msg sample_decls (sample_network 0 25).id 1)
          ∧ sent_ranges (rs.map (range_msg sample_decls (sample_network 0 25).id 1)) = rs
          ∧ rs ≠ []
          ∧ (∀ r ∈ rs, r.1 ≤ r.2)
          ∧ (rs.head?).map Prod.fst = some 3
          ∧ rs.Chain' (fun a b => b.1 = a.2 + 1)
          ∧ (rs.getLast?).map Prod.snd = some (sample_network 0 25).latest_stable_ae_index
          ∧ (rs.map fun r => index_range r.1 r.2).flatten
              = index_range 3 (sample_network 0 25).latest_stable_ae_index :=
  ⟨by decide, send_append_entries_ranges_partition sample_decls (sample_network 0 25) 1 3
    (by decide)⟩

/-! ## The receive loop, index by index: lemmas -/

theorem index_range_empty (a b : Index) (h : b < a) : index_range a b = [] := by
  unfold index_range
  have h0 : (b + 1 - a).toNat = 0 := by
    unfold Index at *
    omega
  rw [h0]
  rfl

theorem index_range_self (a : Index) : index_range a a = [a] := by
  unfold index_range
  have h1 : (a + 1 - a).toNat = 1 := by
    unfold Index at *
    omega
  rw [h1]
  simp [List.range_succ]

theorem index_range_cons (a b : Index) (h : a ≤ b) :
    index_range a b = a :: index_range (a + 1) b := by
  rw [← index_range_append a a b (by unfold Index at *; omega) h, index_range_self]
  rfl

/-- The `for` header of the receive loop ranges over `i, ..., r.idx`. -/
theorem recv_loop_indices_eq (r : AppendEntries) (fuel : Nat) :
    ∀ i : Index, (r.idx + 1 - i).toNat ≤ fuel →
      recv_loop_indices r fuel i = index_range i r.idx := by
  induction fuel with
  | zero =>
    intro i h
    rw [index_range_empty i r.idx (by unfold Index at *; omega)]
    rfl
  | succ n ih =>
    intro i h
    unfold recv_loop_indices
    by_cases hi : i ≤ r.idx
    · rw [if_pos hi, ih (i + 1) (by unfold Index at *; omega), index_range_cons i r.idx hi]
    · rw [if_neg hi, index_range_empty i r.idx (by unfold Index at *; omega)]

/-- A loop that makes no call has the shape of a loop over no index. -/
theorem recv_loop_shape_done {σ : Type} (r : AppendEntries) (i : Index) (s : Pbft σ)
    (o : Outcome) : recv_loop_shape r i [] s.calls (s, o) := by
  refine ⟨[], by simp, ?_, ?_, ?_, ?_⟩
  · exact List.prefix_refl _
  · intro _ _
    rfl
  · intro p hp
    exact absurd hp (List.not_mem_nil _)
  · intro c hc
    exact absurd hc (List.not_mem_nil _)

/-- The shape of a loop that stops at index `i` on a malformed entry. -/
theorem recv_loop_shape_truncate {σ : Type} (r : AppendEntries) (i : Index)
    (rest : List Index) (calls0 : List Call) (res : Pbft σ × Outcome)
    (hc : res.1.calls = calls0 ++ [Call.get_entry i, Call.truncate r.prev_idx]) :
    recv_loop_shape r i (i :: rest) calls0 res := by
  refine ⟨[Call.get_entry i, Call.truncate r.prev_idx], hc, ?_, ?_, ?_, ?_⟩
  · exact ⟨rest, rfl⟩
  · intro _ hno
    exact absurd (List.mem_cons_of_mem _ (List.mem_singleton.mpr rfl)) (hno r.prev_idx)
  · intro p hp
    simp only [List.mem_cons, reduceCtorEq, false_or, List.mem_singleton,
      Call.truncate.injEq, List.not_mem_nil, or_false] at hp
    refine ⟨hp, [], i, rfl, ?_, ?_⟩
    · intro c hc2
      exact absurd hc2 (List.not_mem_nil _)
    · intro q hq
      exact absurd hq (List.not_mem_nil _)
  · intro c hc2 k hk
    simp only [List.mem_cons, List.mem_singleton, List.not_mem_nil, or_false] at hc2
    rcases hc2 with h | h
    · rw [h] at hk
      simp only [Call.index, Option.some.injEq] at hk
      rw [hk]
    · rw [h] at hk
      simp [Call.index] at hk

/-- The shape of a loop that is left by the exception at index `i`. -/
theorem recv_loop_shape_threw {σ : Type} (r : AppendEntries) (i : Index)
    (rest : List Index) (calls0 : List Call) (s2 : Pbft σ) (v : Index) (e : List Byte)
    (res : DeserialiseSuccess)
    (hc : s2.calls = calls0 ++ [Call.get_entry i, Call.deserialise_views i v e res]) :
    recv_loop_shape r i (i :: rest) calls0 (s2, Outcome.threw) := by
  refine ⟨[Call.get_entry i, Call.deserialise_views i v e res], hc, ?_, ?_, ?_, ?_⟩
  · exact ⟨rest, rfl⟩
  · intro h _
    exact Outcome.noConfusion h
  · intro p hp
    simp at hp
  · intro c hc2 k hk
    simp only [List.mem_cons, List.mem_singleton, List.not_mem_nil, or_false] at hc2
    rcases hc2 with h | h
    · rw [h] at hk
      simp only [Call.index, Option.some.injEq] at hk
      rw [hk]
    · rw [h] at hk
      simp only [Call.index, Option.some.injEq] at hk
      rw [hk]

/-- One completed iteration at index `i`, whose calls `ev` are all for index
`i` and visit it once, followed by a loop of the right shape from `i + 1`,
is a loop of the right shape from `i`. -/
theorem recv_loop_shape_step {σ : Type} (r : AppendEntries) (i : Index) (rest : List Index)
    (calls0 ev : List Call) (res : Pbft σ × Outcome)
    (hvis : visited_indices ev = [i]) (hidx : ∀ c ∈ ev, c.index = some i)
    (h : recv_loop_shape r (i + 1) rest (calls0 ++ ev) res) :
    recv_loop_shape r i (i :: rest) calls0 res := by
  obtain ⟨new, h1, h2, h3, h4, h5⟩ := h
  have hvapp : visited_indices (ev ++ new) = i :: visited_indices new := by
    unfold visited_indices at hvis ⊢
    rw [List.filterMap_append, hvis]
    rfl
  have hnotr : ∀ q, Call.truncate q ∉ ev := by
    intro q hq
    have := hidx _ hq
    simp [Call.index] at this
  refine ⟨ev ++ new, by rw [h1, List.append_assoc], ?_, ?_, ?_, ?_⟩
  · rw [hvapp]
    exact (List.prefix_cons_inj i).mpr h2
  · intro hret hno
    rw [hvapp, h3 hret (fun p hp => hno p (List.mem_append_right ev hp))]
  · intro p hp
    have hp2 : Call.truncate p ∈ new := by
      rcases List.mem_append.mp hp with h | h
      · exact absurd h (hnotr p)
      · exact h
    obtain ⟨e1, pre, j, e2, e3, e4⟩ := h4 p hp2
    have hj : i + 1 ≤ j := by
      apply h5 (Call.get_entry j) _ j rfl
      rw [e2]
      simp
    refine ⟨e1, ev ++ pre, j, by rw [e2, List.append_assoc], ?_, ?_⟩
    · intro c hc k hk
      rcases List.mem_append.mp hc with h | h
      · have := hidx c h
        rw [this] at hk
        have hik : i = k := Option.some.inj hk
        unfold Index at *
        omega
      · exact e3 c h k hk
    · intro q hq
      rcases List.mem_append.mp hq with h | h
      · exact absurd h (hnotr q)
      · exact absurd h (e4 q)
  · intro c hc k hk
    rcases List.mem_append.mp hc with h | h
    · have := hidx c h
      rw [this] at hk
      have hik : i = k := Option.some.inj hk
      rw [← hik]
    · have := h5 c h k hk
      unfold Index at *
      omega

/-- The calls of the receive loop have the shape `recv_loop_shape`, for every
behaviour of the collaborators, every cursor and every state. -/
theorem recv_append_entries_loop_shape {σ τ : Type} (E : Env σ τ) (r : AppendEntries)
    (fuel : Nat) :
    ∀ (i : Index) (data : List Byte) (s : Pbft σ),
      recv_loop_shape r i (recv_loop_indices r fuel i) s.calls
        (recv_append_entries_loop E r fuel i data s) := by
  induction fuel with
  | zero =>
    intro i data s
    exact recv_loop_shape_done r i s Outcome.returned
  | succ n ih =>
    intro i data s
    unfold recv_append_entries_loop recv_loop_indices
    by_cases hi : i ≤ r.idx
    · rw [if_pos hi, if_pos hi]
      simp only []
      by_cases hv : i ≤ E.current_version s.world
      · rw [if_pos hv]
        exact recv_loop_shape_step r i _ s.calls [Call.skip_entry i] _ rfl
          (by simp [Call.index]) (ih (i + 1) _ (s.log (Call.skip_entry i)))
      · rw [if_neg hv]
        cases hok : (E.get_entry data).1.2 with
        | false =>
          simp only [Bool.not_false, if_true]
          exact recv_loop_shape_truncate r i _ s.calls _ (by simp [log_calls])
        | true =>
          simp only [Bool.not_true, Bool.false_eq_true, if_false]
          have hpo : (s.log (Call.get_entry i)).public_only = s.public_only := rfl
          simp only [log_world, hpo]
          have key : ∀ (ev : List Call) (s2 : Pbft σ) (data2 : List Byte),
              s2.calls = s.calls ++ ev → visited_indices ev = [i] →
              (∀ c ∈ ev, c.index = some i) →
              recv_loop_shape r i (i :: recv_loop_indices r n (i + 1)) s.calls
                (recv_append_entries_loop E r n (i + 1) data2 s2) := by
            intro ev s2 data2 hs2 hvis hidx
            have h := ih (i + 1) data2 s2
            rw [hs2] at h
            exact recv_loop_shape_step r i _ s.calls ev _ hvis hidx h
          cases hres : (E.deserialise_views s.world (E.get_entry data).1.1 s.public_only).1 with
          | FAILED =>
            exact key [Call.get_entry i, Call.deserialise_views i (E.current_version s.world)
                (E.get_entry data).1.1 DeserialiseSuccess.FAILED] _ _
              (by simp [log_calls]) rfl (by simp [Call.index])
          | PASS =>
            exact key [Call.get_entry i, Call.deserialise_views i (E.current_version s.world)
                (E.get_entry data).1.1 DeserialiseSuccess.PASS, Call.playback_request i] _ _
              (by simp [log_calls]) rfl (by simp [Call.index])
          | PASS_PRE_PREPARE =>
            exact key [Call.get_entry i, Call.deserialise_views i (E.current_version s.world)
                (E.get_entry data).1.1 DeserialiseSuccess.PASS_PRE_PREPARE,
                Call.playback_pre_prepare i] _ _
              (by simp [log_calls]) rfl (by simp [Call.index])
          | other k =>
            exact recv_loop_shape_threw r i _ s.calls _ (E.current_version s.world)
              (E.get_entry data).1.1 (DeserialiseSuccess.other k) (by simp [log_calls])
    · rw [if_neg hi, if_neg hi]
      exact recv_loop_shape_done r i s Outcome.returned

/-- The three ways `recv_message` can go: it makes no call; it hands a PBFT
message to `receive_message`; or it is an append-entries message whose
header `r` is above the store's version, and the result is that of the loop
over `r.prev_idx + 1 .. r.idx` started with the calls and collaborators as
they were. -/
theorem recv_message_cases {σ τ : Type} (d : Decls) (E : Env σ τ) (s : Pbft σ)
    (data : List Byte) :
    (recv_message d E s data).1.calls = s.calls
      ∨ (∃ data1, (recv_message d E s data).1.calls
          = s.calls ++ [Call.receive_message data1 data1.length])
      ∨ (∃ r data1 s1,
          E.recv_authenticated s.world data = some (r, data1)
            ∧ ¬ r.idx ≤ E.current_version s.world
            ∧ s1.calls = s.calls ∧ s1.world = s.world
            ∧ recv_message d E s data
              = recv_append_entries_loop E r (r.idx - r.prev_idx).toNat (r.prev_idx + 1)
                  data1 s1) := by
  unfold recv_message
  cases serialized_peek d.sizeof_PbftMsgType data with
  | none => exact Or.inl rfl
  | some t =>
    simp only []
    by_cases h1 : t = d.pbft_message
    · rw [if_pos h1]
      cases serialized_skip data d.sizeof_PbftHeader with
      | none => exact Or.inl rfl
      | some data1 => exact Or.inr (Or.inl ⟨data1, rfl⟩)
    · rw [if_neg h1]
      by_cases h2 : t = d.pbft_append_entries
      · rw [if_pos h2]
        cases E.IsExecutionPending s.world with
        | true => exact Or.inl rfl
        | false =>
          simp only [Bool.false_eq_true, if_false]
          cases hra : E.recv_authenticated s.world data with
          | none => exact Or.inl rfl
          | some rd =>
            obtain ⟨r, data1⟩ := rd
            simp only []
            by_cases h3 : r.idx ≤ E.current_version s.world
            · rw [if_pos h3]
              exact Or.inl rfl
            · rw [if_neg h3]
              exact Or.inr (Or.inr ⟨r, data1,
                { s with nodes :=
                    match s.nodes r.from_node with
                    | some _ => Function.update s.nodes r.from_node (some r.idx)
                    | none => Function.update s.nodes r.from_node (some r.idx) },
                rfl, h3, rfl, rfl, rfl⟩)
      · rw [if_neg h2]
        exact Or.inl rfl

/-! ## The receive loop, index by index: properties -/

/-- C27: replayed entries are applied at most once. In every run of
`recv_message`, every entry deserialised into the store has an index above
the store's current version at that moment; an append-entries message whose
`idx` is at most the store's current version makes no call at all and leaves
the collaborators as they are; and at every iteration of the loop whose
index is at most the store's current version the body only advances the
cursor with `skip_entry`, then goes on with the next index. -/
theorem recv_message_applies_at_most_once {σ τ : Type} (d : Decls) (E : Env σ τ) :
    (∀ (s : Pbft σ) (data : List Byte),
        ∃ new, (recv_message d E s data).1.calls = s.calls ++ new
          ∧ ∀ i v e res, Call.deserialise_views i v e res ∈ new → ¬ i ≤ v)
      ∧ (∀ (s : Pbft σ) (data : List Byte) (r : AppendEntries) (data1 : List Byte),
          serialized_peek d.sizeof_PbftMsgType data = some d.pbft_append_entries →
          E.recv_authenticated s.world data = some (r, data1) →
          r.idx ≤ E.current_version s.world →
          (recv_message d E s data).1.calls = s.calls
            ∧ (recv_message d E s data).1.world = s.world
            ∧ (recv_message d E s data).2 = Outcome.returned)
      ∧ (∀ (r : AppendEntries) (fuel : Nat) (i : Index) (data : List Byte) (s : Pbft σ),
          i ≤ r.idx → i ≤ E.current_version s.world →
          recv_append_entries_loop E r (fuel + 1) i data s
            = recv_append_entries_loop E r fuel (i + 1) (E.skip_entry data)
                (s.log (Call.skip_entry i))) := by
  refine ⟨?_, ?_, ?_⟩
  · intro s data
    rcases recv_message_cases d E s data with h | ⟨data1, h⟩ | ⟨r, data1, s1, _, _, hc, _, h⟩
    · exact ⟨[], by rw [h, List.append_nil], by simp⟩
    · exact ⟨_, h, by simp⟩
    · obtain ⟨new, e1, e2, _⟩ := recv_append_entries_loop_calls E r (r.idx - r.prev_idx).toNat
        (r.prev_idx + 1) data1 s1
      refine ⟨new, by rw [h, e1, hc], ?_⟩
      intro i v e res hmem
      have := (e2 i v e res hmem).1
      unfold Index at *
      omega
  · intro s data r data1 hpeek hra hle
    unfold recv_message
    rw [hpeek]
    simp only []
    rw [if_neg (Ne.symm d.enumerators_differ), if_pos trivial]
    cases E.IsExecutionPending s.world with
    | true => exact ⟨rfl, rfl, rfl⟩
    | false =>
      simp only [Bool.false_eq_true, if_false]
      rw [hra]
      simp only []
      rw [if_pos hle]
      exact ⟨rfl, rfl, rfl⟩
  · intro r fuel i data s hi hv
    rw [recv_append_entries_loop, if_pos hi]
    simp only []
    rw [if_pos hv]

/-- C27 at a concrete input: a message with header `(idx, prev_idx) = (2, 0)`
received at store version 5 makes no call, and an iteration at index 1 with
the store at version 5 only skips the entry. -/
theorem recv_message_applies_at_most_once_witness :
    ((recv_message sample_decls sample_env (Pbft.init 1 (5 : Index))
          (sample_append_entries 2 0 [[1, 1], [2, 1]])).1.calls
        = (Pbft.init 1 (5 : Index)).calls
      ∧ (recv_message sample_decls sample_env (Pbft.init 1 (5 : Index))
          (sample_append_entries 2 0 [[1, 1], [2, 1]])).1.world
        = (Pbft.init 1 (5 : Index)).world
      ∧ (recv_message sample_decls sample_env (Pbft.init 1 (5 : Index))
          (sample_append_entries 2 0 [[1, 1], [2, 1]])).2 = Outcome.returned)
    ∧ recv_append_entries_loop sample_env
          { msg := 1001, from_node := 7, idx := 2, prev_idx := 0 } (1 + 1) 1
          [2, 1, 1, 2, 2, 1] (Pbft.init 1 (5 : Index))
        = recv_append_entries_loop sample_env
            { msg := 1001, from_node := 7, idx := 2, prev_idx := 0 } 1 (1 + 1)
            (sample_env.skip_entry [2, 1, 1, 2, 2, 1])
            ((Pbft.init 1 (5 : Index)).log (Call.skip_entry 1)) :=
  ⟨(recv_message_applies_at_most_once sample_decls sample_env).2.1 (Pbft.init 1 (5 : Index))
      (sample_append_entries 2 0 [[1, 1], [2, 1]])
      { msg := 1001, from_node := 7, idx := 2, prev_idx := 0 } [2, 1, 1, 2, 2, 1]
      (by decide) (by decide) (by decide),
    (recv_message_applies_at_most_once sample_decls sample_env).2.2
      { msg := 1001, from_node := 7, idx := 2, prev_idx := 0 } 1 1 [2, 1, 1, 2, 2, 1]
      (Pbft.init 1 (5 : Index)) (by decide) (by decide)⟩

/-- C28: a malformed entry stops the message. At every iteration of the loop
of `recv_message` on a header `r` that reads the entry of its index `i` and
gets it reported malformed, the ledger is truncated to `r.prev_idx` and the
method returns, with `get_entry` and `truncate` as its last two calls; and
in every run of `recv_message` a `truncate` call is for the `prev_idx` of
the received header, is the last call, directly follows the `get_entry` of
some index `j`, and every entry call before it (skip, read, deserialise,
play back) is for an index below `j`: neither entry `j` nor any later entry
is deserialised into the store or played back. -/
theorem recv_message_stops_at_malformed_entry {σ τ : Type} (d : Decls) (E : Env σ τ) :
    (∀ (r : AppendEntries) (fuel : Nat) (i : Index) (data : List Byte) (s : Pbft σ),
        i ≤ r.idx → ¬ i ≤ E.current_version s.world → (E.get_entry data).1.2 = false →
        recv_append_entries_loop E r (fuel + 1) i data s
          = ({ s with
                world := E.truncate s.world r.prev_idx
                calls := s.calls ++ [Call.get_entry i, Call.truncate r.prev_idx] },
              Outcome.returned))
      ∧ (∀ (s : Pbft σ) (data : List Byte),
          ∃ new, (recv_message d E s data).1.calls = s.calls ++ new
            ∧ ∀ p, Call.truncate p ∈ new →
                (∃ r data1, E.recv_authenticated s.world data = some (r, data1)
                  ∧ p = r.prev_idx)
                ∧ ∃ pre j, new = pre ++ [Call.get_entry j, Call.truncate p]
                    ∧ (∀ c ∈ pre, ∀ k, c.index = some k → k < j)
                    ∧ ∀ q, Call.truncate q ∉ pre) := by
  refine ⟨?_, ?_⟩
  · intro r fuel i data s hi hv hbad
    show recv_append_entries_loop E r (fuel + 1) i data s = _
    unfold recv_append_entries_loop
    rw [if_pos hi]
    simp only []
    rw [if_neg hv, hbad]
    simp [Pbft.log]
  · intro s data
    rcases recv_message_cases d E s data with h | ⟨data1, h⟩ | ⟨r, data1, s1, hra, _, hc, _, h⟩
    · exact ⟨[], by rw [h, List.append_nil], by simp⟩
    · exact ⟨_, h, by simp⟩
    · obtain ⟨new, e1, _, _, e4, _⟩ := recv_append_entries_loop_shape E r
        (r.idx - r.prev_idx).toNat (r.prev_idx + 1) data1 s1
      refine ⟨new, by rw [h, e1, hc], ?_⟩
      intro p hp
      obtain ⟨hpp, pre, j, a1, a2, a3⟩ := e4 p hp
      exact ⟨⟨r, data1, hra, hpp⟩, pre, j, by rw [a1, hpp], a2, a3⟩

/-- C28 at a concrete input: at index 1 of a header `(2, 0)`, with the store
at version 0 and nothing left to read, the ledger reports a malformed entry,
is truncated to 0, and the loop returns; and the run of `recv_message` on a
message with header `(2, 0)` that carries one entry only. -/
theorem recv_message_stops_at_malformed_entry_witness :
    recv_append_entries_loop sample_env
        { msg := 1001, from_node := 7, idx := 2, prev_idx := 0 } (1 + 1) 1 []
        (Pbft.init 1 (0 : Index))
      = ({ (Pbft.init 1 (0 : Index)) with
            world := sample_env.truncate (Pbft.init 1 (0 : Index)).world 0
            calls := (Pbft.init 1 (0 : Index)).calls
              ++ [Call.get_entry 1, Call.truncate 0] },
          Outcome.returned)
    ∧ ∃ new, (recv_message sample_decls sample_env (Pbft.init 1 (0 : Index))
          (sample_append_entries 2 0 [[1, 1]])).1.calls
        = (Pbft.init 1 (0 : Index)).calls ++ new
      ∧ ∀ p, Call.truncate p ∈ new →
          (∃ r data1, sample_env.recv_authenticated (Pbft.init 1 (0 : Index)).world
              (sample_append_entries 2 0 [[1, 1]]) = some (r, data1)
            ∧ p = r.prev_idx)
          ∧ ∃ pre j, new = pre ++ [Call.get_entry j, Call.truncate p]
              ∧ (∀ c ∈ pre, ∀ k, c.index = some k → k < j)
              ∧ ∀ q, Call.truncate q ∉ pre :=
  ⟨(recv_message_stops_at_malformed_entry sample_decls sample_env).1
      { msg := 1001, from_node := 7, idx := 2, prev_idx := 0 } 1 1 []
      (Pbft.init 1 (0 : Index)) (by decide) (by decide) rfl,
    (recv_message_stops_at_malformed_entry sample_decls sample_env).2
      (Pbft.init 1 (0 : Index)) (sample_append_entries 2 0 [[1, 1]])⟩

end pbft
